import Mathlib

/-!
Verification of the cloudldap entry repository against its specification.

The definitions below are a shallow embedding of the Go source:

* `encodeDN`, `ParseDN`, `DNOrigStr`, `DNNormStr` embed the DN model
  (`schema/util.go`, the DN file of the schema package);
* `normalize` and its helpers embed the attribute-value normalization table
  (`schema/util.go`);
* `SV` with `SV.Diff` / `SV.Delete`, `ModOperation`, and the `Changelog`
  operations embed `SchemaValue` and `repo/changelog.go`;
* `shouldVersionUpdated` and the `OnUpdate` gate embed the cache
  consistency check of `repo/changelog.go`;
* `internalUpdateGo`, `retryLoop`, `internalUpdateDNGo`, `insertInternalGo`
  and `BindGo` embed the corresponding repository operations.

Machine integers are modelled as `Int`/`Nat`; Go byte strings are modelled
as `List Char` (hex escapes decode to the character with the byte's code
point).  Fallible Go code is modelled with `Option`/`Except`.
-/

/-! ### Characters and small string utilities -/

/-- Go `strings.ToLower` restricted to the ASCII range, per character
(`'A'`–`'Z'` is code points 65–90). -/
def lowerChar (c : Char) : Char :=
  if 65 ≤ c.toNat ∧ c.toNat ≤ 90 then Char.ofNat (c.toNat + 32) else c

/-- Lowercasing a string (list of characters). -/
def lowerStr (s : List Char) : List Char := s.map lowerChar

/-- The whitespace class of Go's regexp `\s`: tab, newline, form feed,
carriage return and space. -/
def isSpaceGo (c : Char) : Bool :=
  c == ' ' || c == '\t' || c == '\n' || c == '\x0c' || c == '\r'

/-! ### `encodeDN` (DN file of the schema package)

`encodeDN` encodes special characters for response DNs.  Each branch below
mirrors one `case` of the Go `switch`, in source order; `first`/`lastc`
stand for the Go index conditions `i == 0` / `i == last`. -/

def encChar (first lastc : Bool) (c : Char) : List Char :=
  if first && c == ' ' then ['\\', '2', '0']
  else if lastc && c == ' ' then ['\\', '2', '0']
  else if c == '"' then ['\\', '2', '2']
  else if first && c == '#' then ['\\', '2', '3']
  else if c == '+' then ['\\', '2', 'B']
  else if c == ',' then ['\\', '2', 'C']
  else if c == ';' then ['\\', '3', 'B']
  else if c == '<' then ['\\', '3', 'C']
  else if c == '=' then ['\\', '3', 'D']
  else if c == '>' then ['\\', '3', 'E']
  else if c == '\\' then ['\\', '5', 'C']
  else [c]

def encGo (first : Bool) : List Char → List Char
  | [] => []
  | c :: cs => encChar first cs.isEmpty c ++ encGo false cs

/-- `encodeDN` from the source: escape special characters of a DN value. -/
def encodeDN (s : List Char) : List Char := encGo true s

/-- The per-character encoding that claim C9 describes: hex-escape exactly
`" + , ; < > \`, a leading or trailing space, and a leading `#`; copy every
other character through unchanged.  (No `=`.) -/
def claimedEncChar (first lastc : Bool) (c : Char) : List Char :=
  if c == '"' then ['\\', '2', '2']
  else if c == '+' then ['\\', '2', 'B']
  else if c == ',' then ['\\', '2', 'C']
  else if c == ';' then ['\\', '3', 'B']
  else if c == '<' then ['\\', '3', 'C']
  else if c == '>' then ['\\', '3', 'E']
  else if c == '\\' then ['\\', '5', 'C']
  else if (first || lastc) && c == ' ' then ['\\', '2', '0']
  else if first && c == '#' then ['\\', '2', '3']
  else [c]

def claimedEncGo (first : Bool) : List Char → List Char
  | [] => []
  | c :: cs => claimedEncChar first cs.isEmpty c ++ claimedEncGo false cs

/-- The whole-string encoding function described by claim C9. -/
def claimedEncodeDN (s : List Char) : List Char := claimedEncGo true s

/-- The amended per-character encoding: claim C9's table extended with `=`,
which the source hex-escapes (as `\3D`) at every position. -/
def amendedEncChar (first lastc : Bool) (c : Char) : List Char :=
  if c == '"' then ['\\', '2', '2']
  else if c == '+' then ['\\', '2', 'B']
  else if c == ',' then ['\\', '2', 'C']
  else if c == ';' then ['\\', '3', 'B']
  else if c == '<' then ['\\', '3', 'C']
  else if c == '=' then ['\\', '3', 'D']
  else if c == '>' then ['\\', '3', 'E']
  else if c == '\\' then ['\\', '5', 'C']
  else if (first || lastc) && c == ' ' then ['\\', '2', '0']
  else if first && c == '#' then ['\\', '2', '3']
  else [c]

def amendedEncGo (first : Bool) : List Char → List Char
  | [] => []
  | c :: cs => amendedEncChar first cs.isEmpty c ++ amendedEncGo false cs

/-- The whole-string encoding function described by the amended claim C9. -/
def amendedEncodeDN (s : List Char) : List Char := amendedEncGo true s

theorem encChar_eq_amended (first lastc : Bool) (c : Char) :
    encChar first lastc c = amendedEncChar first lastc c := by
  by_cases h1 : c = ' '
  · subst h1; cases first <;> cases lastc <;> rfl
  all_goals by_cases h2 : c = '"'
  all_goals try (subst h2; cases first <;> cases lastc <;> rfl)
  all_goals by_cases h3 : c = '#'
  all_goals try (subst h3; cases first <;> cases lastc <;> rfl)
  all_goals by_cases h4 : c = '+'
  all_goals try (subst h4; cases first <;> cases lastc <;> rfl)
  all_goals by_cases h5 : c = ','
  all_goals try (subst h5; cases first <;> cases lastc <;> rfl)
  all_goals by_cases h6 : c = ';'
  all_goals try (subst h6; cases first <;> cases lastc <;> rfl)
  all_goals by_cases h7 : c = '<'
  all_goals try (subst h7; cases first <;> cases lastc <;> rfl)
  all_goals by_cases h8 : c = '='
  all_goals try (subst h8; cases first <;> cases lastc <;> rfl)
  all_goals by_cases h9 : c = '>'
  all_goals try (subst h9; cases first <;> cases lastc <;> rfl)
  all_goals by_cases h10 : c = '\\'
  all_goals try (subst h10; cases first <;> cases lastc <;> rfl)
  all_goals
    simp [encChar, amendedEncChar, beq_iff_eq, h1, h2, h3, h4, h5, h6, h7, h8, h9, h10]

theorem encGo_eq_amended (first : Bool) (s : List Char) :
    encGo first s = amendedEncGo first s := by
  induction s generalizing first with
  | nil => rfl
  | cons c cs ih =>
    simp only [encGo, amendedEncGo, encChar_eq_amended, ih]

/-- C9 counterexample: `encodeDN` escapes `=` (as `\3D`), while the claim's
encoding copies `=` through unchanged. -/
theorem C9_counterexample :
    encodeDN ['='] = ['\\', '3', 'D'] ∧
      claimedEncodeDN ['='] = ['='] ∧
      encodeDN ['='] ≠ claimedEncodeDN ['='] := by
  refine ⟨rfl, rfl, ?_⟩; decide

/-- C9 (amended): for every input string the response-DN encoding
hex-escapes (as `\HH`) exactly the characters `" + , ; < > \ =`, plus a
leading or trailing space and a leading `#`, and copies every other
character through unchanged. -/
theorem C9_amended (s : List Char) : encodeDN s = amendedEncodeDN s :=
  encGo_eq_amended true s

/-! ### Notify messages and the cache consistency gate (`repo/changelog.go`,
`repo/repo.go`) -/

inductive NotifyOp where
  | add | mod | modrdn | del
deriving DecidableEq, Repr

structure NotifyMessage where
  issuer : String
  id : Int
  op : NotifyOp
  rev : Int
  association : Bool
  dependant : List Int
  sub : Bool
deriving DecidableEq, Repr

def NotifyMessage.IsAdd (m : NotifyMessage) : Bool := m.op == NotifyOp.add

def NotifyMessage.IsMod (m : NotifyMessage) : Bool :=
  m.op == NotifyOp.mod || m.op == NotifyOp.modrdn

def NotifyMessage.IsDel (m : NotifyMessage) : Bool := m.op == NotifyOp.del

/-- `shouldVersionUpdated` from `repo/changelog.go`. -/
def shouldVersionUpdated (dbVersion cacheVersion : Int) : Bool :=
  dbVersion < 0 && cacheVersion > 0 || dbVersion > cacheVersion

/-- The `doUpdate` decision of `DefaultRepository.OnUpdate`: the entry is
re-fetched and upserted when it is absent from the cache, or present with a
revision for which `shouldVersionUpdated` holds. -/
def onUpdateDoUpdate (m : NotifyMessage) (cached : Option Int) : Bool :=
  match cached with
  | some r => shouldVersionUpdated m.rev r
  | none => true

/-- Whether `OnUpdate` upserts the entry for `m.id` (the `IsAdd`/`IsMod`
branch guarded by `doUpdate`). -/
def onUpdateUpserts (m : NotifyMessage) (cached : Option Int) : Bool :=
  (m.IsAdd || m.IsMod) && onUpdateDoUpdate m cached

/-- The revision stored for `m.id` after `OnUpdate`.  An upsert re-fetches
the entry from the durable store (`CacheEntryByID`), so it stores the
store's current revision `dbRev`, not `m.rev`; a delete removes the entry;
otherwise the cache is untouched. -/
def onUpdateStep (dbRev : Int) (m : NotifyMessage) (cached : Option Int) :
    Option Int :=
  if onUpdateUpserts m cached then some dbRev
  else if m.IsDel then none
  else cached

/-- C1 counterexample: a `mod` message with `rev = -1` for an entry cached
with revision `1` is upserted by `OnUpdate` even though `-1` does not
strictly exceed `1`, so the claimed "upsert iff the message's rev strictly
exceeds the cached rev" is false. -/
theorem C1_counterexample :
    onUpdateUpserts
        { issuer := "a", id := 5, op := NotifyOp.mod, rev := -1,
          association := false, dependant := [], sub := false }
        (some 1) = true ∧
      ¬ ((-1 : Int) > 1) := by
  constructor
  · rfl
  · decide

/-- C1 (amended): for an `add`/`mod`/`modrdn` message `m` handled by
`OnUpdate`, an entry cached with revision `r` is upserted iff `m.rev`
strictly exceeds `r` or `m.rev` is negative while `r` is positive (the
negative revision acts as a force-refresh sentinel); an absent entry is
always upserted.  Consequently, for messages carrying a non-negative
revision, the upsert (which stores the durable store's current revision
`dbRev`, itself at least `m.rev`) never decreases the cached revision. -/
theorem C1_amended (m : NotifyMessage) (r dbRev : Int)
    (hop : m.IsAdd = true ∨ m.IsMod = true) :
    (onUpdateUpserts m (some r) = true ↔ (m.rev > r ∨ (m.rev < 0 ∧ r > 0))) ∧
      onUpdateUpserts m none = true ∧
      (0 ≤ m.rev → m.rev ≤ dbRev →
        ∀ r_new, onUpdateStep dbRev m (some r) = some r_new → r ≤ r_new) := by
  have hops : (m.IsAdd || m.IsMod) = true := by
    rcases hop with h | h <;> simp [h]
  refine ⟨?_, ?_, ?_⟩
  · simp only [onUpdateUpserts, onUpdateDoUpdate, shouldVersionUpdated, hops,
      Bool.true_and, Bool.or_eq_true, Bool.and_eq_true, decide_eq_true_eq]
    tauto
  · simp [onUpdateUpserts, onUpdateDoUpdate, hops]
  · intro hnn hdb r_new hstep
    have hopcases : m.op = NotifyOp.add ∨ m.op = NotifyOp.mod ∨ m.op = NotifyOp.modrdn := by
      simp only [NotifyMessage.IsAdd, NotifyMessage.IsMod, beq_iff_eq,
        Bool.or_eq_true, decide_eq_true_eq] at hops
      tauto
    have hdel : m.IsDel = false := by
      simp only [NotifyMessage.IsDel, beq_iff_eq, decide_eq_false_iff_not]
      rcases hopcases with h | h | h <;> simp [h]
    cases hup : onUpdateUpserts m (some r) with
    | true =>
      have hgate : m.rev > r ∨ (m.rev < 0 ∧ r > 0) := by
        simp only [onUpdateUpserts, onUpdateDoUpdate, shouldVersionUpdated, hops,
          Bool.true_and, Bool.or_eq_true, Bool.and_eq_true, decide_eq_true_eq] at hup
        tauto
      have hrr : m.rev > r := by
        rcases hgate with h | ⟨h, _⟩
        · exact h
        · omega
      simp only [onUpdateStep, hup, if_true, Option.some.injEq] at hstep
      omega
    | false =>
      simp only [onUpdateStep, hup, Bool.false_eq_true, if_false, hdel,
        Option.some.injEq] at hstep
      omega

/-- C1 witness at a concrete input. -/
theorem C1_amended_witness :
    onUpdateUpserts
        { issuer := "a", id := 7, op := NotifyOp.add, rev := 3,
          association := false, dependant := [], sub := false }
        (some 2) = true := by
  have h := C1_amended
    { issuer := "a", id := 7, op := NotifyOp.add, rev := 3,
      association := false, dependant := [], sub := false } 2 3
    (Or.inl rfl)
  exact h.1.mpr (by left; decide)

/-! ### `internalUpdateDN` (`repo/repo_default_updatedn.go`)

The embedding covers the nil-error paths of `internalUpdateDN` at the level
of the locked rows it reads in Steps 1-4.  Each row-targeted UPDATE
statement runs inside the transaction that just locked and read its
pre-image `rev`, so it affects exactly one row; the Go checks on the
affected-row counts are kept.  In Step 5 the loop compares the single
`updatePath` statement's count `1` against `len(oldSubTree)` and on
mismatch runs `return reportError(err)` with `err` still nil —
`errors.Wrapf(nil, ...)` is nil — so a move with two or more
sub-containers returns `(nil, nil)`: the transaction commits with only the
first sub-container's path rewritten, and `OnUpdate`, called on the nil
message, returns immediately without touching the cache. -/

structure MoveSubEntry where
  id : Int
  rev : Int
  path : List Int
deriving DecidableEq, Repr

structure ParentRow where
  id : Int
  rev : Int
  path : List Int
  isContainer : Bool
  parentPath : List Int
deriving DecidableEq, Repr

/-- The `updateContainer` statement: `SET rev = rev + 1, path, is_container
WHERE id = :id AND rev = :rev AND is_container != :is_container`, returning
the updated row and the number of affected rows. -/
def updateContainerGo (row : ParentRow) (id rev : Int) (path : List Int)
    (isContainer : Bool) : ParentRow × Nat :=
  if row.id = id ∧ row.rev = rev ∧ row.isContainer ≠ isContainer then
    ({ row with rev := row.rev + 1, path := path, isContainer := isContainer }, 1)
  else
    (row, 0)

/-- The `fromIndex` computation of Step 5: the Go initializes
`fromIndex := 0` and breaks at the first element of the sub-container's
`path` equal to the moved entry's id, so the result is the first index of
that id when present and `0` when absent. -/
def goPathIndex (entryId : Int) (path : List Int) : Nat :=
  if entryId ∈ path then path.indexOf entryId else 0

/-- The Step-5 loop of `internalUpdateDN`: for each sub-container row the
`updatePath` statement (`SET rev = rev + 1, path = :new_path WHERE id = :id
AND rev = :rev`) rewrites the single locked row, reporting one affected
row, and the Go compares that count `1` against `len(oldSubTree)`.  On
mismatch it runs `return reportError(err)` where `err` is the exec's nil
error, and `errors.Wrapf(nil, ...)` is nil, so the loop stops with a nil
message and a nil error after this row's path was already rewritten.  The
result is the list of sub-container rows as the statements left them,
paired with `true` iff the loop ran to completion (after which the Go sets
`updateSubTree = true`). -/
def updateSubTreePaths (entryId : Int) (newParentPath : List Int)
    (total : Nat) : List MoveSubEntry → List MoveSubEntry × Bool
  | [] => ([], true)
  | v :: rest =>
    let v' : MoveSubEntry :=
      { v with rev := v.rev + 1,
               path := newParentPath ++ v.path.drop (goPathIndex entryId v.path) }
    if total = 1 then
      let r := updateSubTreePaths entryId newParentPath total rest
      (v' :: r.1, r.2)
    else
      (v' :: rest, false)

/-- Outcome of `internalUpdateDN` on a path that returns a nil error: the
notify message (`none` models the Go's nil message, on which `OnUpdate`
returns immediately), the sub-container rows as left in the database, and
whether Step 7 re-parented the moved entry. -/
structure UpdateDNResult where
  msg : Option NotifyMessage
  subTree : List MoveSubEntry
  entryMoved : Bool
deriving DecidableEq, Repr

def internalUpdateDNGo (id rev : Int) (move : Bool) (oldParentId : Int)
    (oldSubTree : List MoveSubEntry) (newParent : ParentRow)
    (entryIsContainer : Bool) (oldParentHasChildren : Bool) (issuer : String) :
    Except Unit UpdateDNResult :=
  if move then
    -- Step 5: rewrite the sub-container paths.  When the loop aborts
    -- (`1 != len(oldSubTree)`, i.e. two or more sub-containers), the
    -- returned `(nil, nil)` skips Steps 6-9: the new parent is not
    -- promoted, the entry is not re-parented, no message is emitted, and
    -- the enclosing transaction commits the rewritten first path.
    let r := updateSubTreePaths id newParent.path oldSubTree.length oldSubTree
    if r.2 = false then
      Except.ok { msg := none, subTree := r.1, entryMoved := false }
    else
      let updateSubTree := !oldSubTree.isEmpty
      -- Step 6: promote the new parent when it is not a container yet
      let dep1 : List Int := if !newParent.isContainer then [newParent.id] else []
      -- Step 7 updates the entry row (one row affected); Step 8: demote
      -- the old parent when it has no remaining children
      let dep : List Int :=
        dep1 ++ (if !oldParentHasChildren then [oldParentId] else [])
      -- Step 9: the final UPDATE bumps `rev`, then the message is emitted
      Except.ok
        { msg := some
            { issuer := issuer, id := id, op := NotifyOp.mod, rev := rev + 1,
              association := false, dependant := dep, sub := updateSubTree },
          subTree := r.1, entryMoved := true }
  else
    Except.ok
      { msg := some
          { issuer := issuer, id := id, op := NotifyOp.mod, rev := rev + 1,
            association := false, dependant := [], sub := false },
        subTree := oldSubTree, entryMoved := false }

/-- C4 counterexample: a successful `UpdateDN` never emits `modrdn` — a
pure rename emits a message whose op is `mod` (the constant `NotifyModRDN`
exists in the source but `internalUpdateDN` never uses it) — and a move of
an entry with two descendant sub-containers emits no message at all (Step
5's row-count check wraps a nil error), committing with only the first
sub-container's path rewritten and the entry not re-parented. -/
theorem C4_counterexample :
    (internalUpdateDNGo 5 1 false 2 []
        { id := 3, rev := 1, path := [], isContainer := true, parentPath := [] }
        false true "s" =
      Except.ok
        { msg := some
            { issuer := "s", id := 5, op := NotifyOp.mod, rev := 2,
              association := false, dependant := [], sub := false },
          subTree := [], entryMoved := false } ∧
      NotifyOp.mod ≠ NotifyOp.modrdn) ∧
    internalUpdateDNGo 5 1 true 2
        [{ id := 9, rev := 1, path := [1, 5, 9] },
         { id := 10, rev := 1, path := [1, 5, 9, 10] }]
        { id := 3, rev := 1, path := [1, 3], isContainer := true, parentPath := [1] }
        true true "s" =
      Except.ok
        { msg := none,
          subTree := [{ id := 9, rev := 2, path := [1, 3, 5, 9] },
                      { id := 10, rev := 1, path := [1, 5, 9, 10] }],
          entryMoved := false } := by
  exact ⟨⟨rfl, by decide⟩, rfl⟩

/-- C4 (amended): every notification a nil-error run of `internalUpdateDN`
emits has op `mod` (never `modrdn`), with `sub` true iff the move rewrote
the path of at least one descendant sub-container; a run emits no
notification exactly when it is a move of an entry with two or more
descendant sub-containers, and then the entry is not re-parented while the
first sub-container's path alone has been rewritten (Step 5's row-count
mismatch returns through `reportError` wrapping a nil error). -/
theorem C4_amended (id rev : Int) (move : Bool) (oldParentId : Int)
    (oldSubTree : List MoveSubEntry) (newParent : ParentRow)
    (entryIsContainer oldParentHasChildren : Bool) (issuer : String)
    (res : UpdateDNResult)
    (h : internalUpdateDNGo id rev move oldParentId oldSubTree newParent
          entryIsContainer oldParentHasChildren issuer = Except.ok res) :
    (∀ m, res.msg = some m →
        m.op = NotifyOp.mod ∧ (m.sub = true ↔ (move = true ∧ oldSubTree ≠ []))) ∧
    (res.msg = none ↔ (move = true ∧ 2 ≤ oldSubTree.length)) ∧
    (res.msg = none →
        res.entryMoved = false ∧
        ∀ v vrest, oldSubTree = v :: vrest →
          res.subTree =
            { v with rev := v.rev + 1,
                     path := newParent.path ++
                       v.path.drop (goPathIndex id v.path) } :: vrest) := by
  cases move with
  | false =>
    simp only [internalUpdateDNGo, Bool.false_eq_true, if_false,
      Except.ok.injEq] at h
    subst h
    refine ⟨?_, ?_, ?_⟩
    · intro m hm
      simp only [Option.some.injEq] at hm
      subst hm
      exact ⟨rfl, by simp⟩
    · simp
    · intro hnone
      cases hnone
  | true =>
    cases oldSubTree with
    | nil =>
      simp only [internalUpdateDNGo, if_true, updateSubTreePaths,
        List.length_nil, Bool.true_eq_false, if_false, Except.ok.injEq] at h
      subst h
      refine ⟨?_, ?_, ?_⟩
      · intro m hm
        simp only [Option.some.injEq] at hm
        subst hm
        simp [List.isEmpty]
      · simp
      · intro hnone
        cases hnone
    | cons v rest =>
      cases rest with
      | nil =>
        simp only [internalUpdateDNGo, if_true, updateSubTreePaths,
          List.length_cons, List.length_nil, Nat.zero_add, if_pos rfl,
          Bool.true_eq_false, if_false, Except.ok.injEq] at h
        subst h
        refine ⟨?_, ?_, ?_⟩
        · intro m hm
          simp only [Option.some.injEq] at hm
          subst hm
          simp [List.isEmpty]
        · simp
        · intro hnone
          cases hnone
      | cons w ws =>
        have hne : ws.length + 1 + 1 ≠ 1 := by omega
        simp only [internalUpdateDNGo, if_true, updateSubTreePaths,
          List.length_cons, if_neg hne, Except.ok.injEq] at h
        subst h
        refine ⟨?_, ?_, ?_⟩
        · intro m hm
          cases hm
        · exact ⟨fun _ => ⟨rfl, by simp only [List.length_cons]; omega⟩, fun _ => rfl⟩
        · intro _
          refine ⟨rfl, ?_⟩
          intro v0 vrest0 heq
          obtain ⟨hv, hr⟩ := List.cons.inj heq
          subst hv
          subst hr
          rfl

/-- C4 witness at concrete inputs: a move that rewrote one sub-container
path yields a message with `op = mod` and `sub = true`. -/
theorem C4_amended_witness :
    (internalUpdateDNGo 5 1 true 2 [{ id := 9, rev := 1, path := [1, 5, 9] }]
        { id := 3, rev := 1, path := [1, 3], isContainer := true, parentPath := [1] }
        true true "s" =
      Except.ok
        { msg := some
            { issuer := "s", id := 5, op := NotifyOp.mod, rev := 2,
              association := false, dependant := [], sub := true },
          subTree := [{ id := 9, rev := 2, path := [1, 3, 5, 9] }],
          entryMoved := true }) ∧
    NotifyOp.mod = NotifyOp.mod ∧ (true = true ↔ True) := by
  refine ⟨rfl, ?_⟩
  have h := C4_amended 5 1 true 2 [{ id := 9, rev := 1, path := [1, 5, 9] }]
    { id := 3, rev := 1, path := [1, 3], isContainer := true, parentPath := [1] }
    true true "s"
    { msg := some
        { issuer := "s", id := 5, op := NotifyOp.mod, rev := 2,
          association := false, dependant := [], sub := true },
      subTree := [{ id := 9, rev := 2, path := [1, 3, 5, 9] }],
      entryMoved := true } rfl
  have h1 := h.1 _ rfl
  exact ⟨h1.1, by simp [h1.2]⟩

/-! ### `insertInternal` (`repo/repo_default_insert.go`)

Success path of a non-root insert: Step 3 promotes a non-container parent
via `updateContainer` and records it in the `dependant` list, Steps 4-6
resolve association DNs and insert the entry (revision 1), and the `add`
notification is emitted. -/

/-- The row produced by promoting a parent to a container (the effect of
`updateContainer` with `is_container = true` and
`path = parent_path || [id]`). -/
def promoteParent (p : ParentRow) : ParentRow :=
  { p with rev := p.rev + 1, path := p.parentPath ++ [p.id], isContainer := true }

def insertInternalGo (p : ParentRow) (assocIds : List String) (newID : Int)
    (issuer : String) : Except Unit (ParentRow × NotifyMessage) :=
  -- Step 3: update parent entry if it is not a container yet; Steps 4-5
  -- insert the new entry with rev 1; Step 6 adds `memberOf` rows for the
  -- resolved association ids; finally the `add` message is emitted.
  if !p.isContainer then
    let r := updateContainerGo p p.id p.rev (p.parentPath ++ [p.id]) true
    if r.2 ≠ 1 then Except.error ()
    else
      Except.ok (r.1,
        { issuer := issuer, id := newID, op := NotifyOp.add, rev := 1,
          association := !assocIds.isEmpty, dependant := [p.id], sub := false })
  else
    Except.ok (p,
      { issuer := issuer, id := newID, op := NotifyOp.add, rev := 1,
        association := !assocIds.isEmpty, dependant := [], sub := false })

/-- C5: inserting under a parent `P` that is not yet a container promotes
`P` (`is_container` becomes true, `path` becomes `P`'s parent path followed
by `P.id`, `rev` is incremented by exactly 1) and the emitted `add`
notification's `dependant` list contains `P.id`; when `P` is already a
container, `P`'s row is unchanged and `dependant` is empty. -/
theorem C5_insert_promotes_parent (p : ParentRow) (assocIds : List String)
    (newID : Int) (issuer : String) :
    (p.isContainer = false →
      insertInternalGo p assocIds newID issuer =
        Except.ok
          (promoteParent p,
            { issuer := issuer, id := newID, op := NotifyOp.add, rev := 1,
              association := !assocIds.isEmpty, dependant := [p.id],
              sub := false }) ∧
      ∀ p2 m, insertInternalGo p assocIds newID issuer = Except.ok (p2, m) →
        p.id ∈ m.dependant) ∧
    (p.isContainer = true →
      insertInternalGo p assocIds newID issuer =
        Except.ok
          (p,
            { issuer := issuer, id := newID, op := NotifyOp.add, rev := 1,
              association := !assocIds.isEmpty, dependant := [],
              sub := false })) := by
  constructor
  · intro hnc
    have hok : insertInternalGo p assocIds newID issuer =
        Except.ok
          (promoteParent p,
            { issuer := issuer, id := newID, op := NotifyOp.add, rev := 1,
              association := !assocIds.isEmpty, dependant := [p.id],
              sub := false }) := by
      have hcond : p.id = p.id ∧ p.rev = p.rev ∧ p.isContainer ≠ true := by
        refine ⟨rfl, rfl, ?_⟩; rw [hnc]; decide
      simp only [insertInternalGo, hnc, Bool.not_false, if_true,
        updateContainerGo, if_pos hcond, ne_eq, promoteParent]
      simp
    refine ⟨hok, ?_⟩
    intro p2 m hm
    rw [hok] at hm
    simp only [Except.ok.injEq, Prod.mk.injEq] at hm
    rw [← hm.2]
    simp
  · intro hc
    simp [insertInternalGo, hc]

/-- C5 witness at a concrete input: a leaf parent is promoted and reported
in `dependant`. -/
theorem C5_insert_promotes_parent_witness :
    insertInternalGo
        { id := 4, rev := 2, path := [], isContainer := false,
          parentPath := [1] } [] 10 "s" =
      Except.ok
        ({ id := 4, rev := 3, path := [1, 4], isContainer := true,
            parentPath := [1] },
          { issuer := "s", id := 10, op := NotifyOp.add, rev := 1,
            association := false, dependant := [4], sub := false }) := by
  have h := (C5_insert_promotes_parent
    { id := 4, rev := 2, path := [], isContainer := false, parentPath := [1] }
    [] 10 "s").1 rfl
  exact h.1

/-! ### `internalUpdate` and the modify handler's retry loop
(`repo/repo_default_update.go`, `server/handler_modify.go`)

Errors are modelled by their classification: `retry` stands for a
`util.RetryError` (the class `xerrors.As(err, &retryError)` detects through
any `errors.Wrap` chain; modelled from the spec, §7, since the `util` error
package itself is not under `src/`), `generic` for a plain
`errors.New`/wrapped error, and `ldap` for other categorized LDAP errors. -/

inductive RepoErr where
  | retry
  | generic
  | ldap
deriving DecidableEq, Repr

/-- The tail of `DefaultRepository.internalUpdate` after executing the
single UPDATE carrying `WHERE id = :id AND rev = :rev`: a result with
`updated != 1` yields the plain error `errors.New("Unexpected update
result")` (not a `RetryError`); otherwise `rev` is bumped and a `mod`
message is emitted whose `association` flag records a non-empty memberOf
delta. -/
def internalUpdateGo (id rev : Int) (updated : Int)
    (memberOfAdd memberOfDel : List String) (issuer : String) :
    Except RepoErr NotifyMessage :=
  if updated ≠ 1 then Except.error RepoErr.generic
  else
    Except.ok
      { issuer := issuer, id := id, op := NotifyOp.mod, rev := rev + 1,
        association := !memberOfAdd.isEmpty || !memberOfDel.isEmpty,
        dependant := [], sub := false }

/-- The `Retry:` loop of `handleModify`: run the attempt; on an error that
classifies as `RetryError` retry while the counter is below `maxRetry`;
any other error is returned to the client at once.  The result records the
number of attempts performed together with the final outcome. -/
def retryLoop (maxRetry : Nat) (f : Nat → Except RepoErr Unit) (i : Nat) :
    Nat × Except RepoErr Unit :=
  match f i with
  | Except.ok u => (i + 1, Except.ok u)
  | Except.error e =>
    if h : e = RepoErr.retry ∧ i < maxRetry then retryLoop maxRetry f (i + 1)
    else (i + 1, Except.error e)
termination_by maxRetry - i
decreasing_by omega

def handleModifyLoop (maxRetry : Nat) (f : Nat → Except RepoErr Unit) :
    Nat × Except RepoErr Unit :=
  retryLoop maxRetry f 0

/-- C3 counterexample: an `Update` whose optimistic pre-image check fails
(zero rows affected) surfaces the plain "Unexpected update result" error;
the modify handler performs exactly one attempt and returns that error to
the client without any retry, because the error is not a `RetryError`. -/
theorem C3_counterexample :
    internalUpdateGo 5 1 0 [] [] "s" = Except.error RepoErr.generic ∧
      RepoErr.generic ≠ RepoErr.retry ∧
      handleModifyLoop 3
          (fun _ => (internalUpdateGo 5 1 0 [] [] "s").map (fun _ => ())) =
        (1, Except.error RepoErr.generic) := by
  refine ⟨rfl, by decide, ?_⟩
  rw [handleModifyLoop, retryLoop]
  rfl

theorem retryLoop_retry_exhausts (maxRetry : Nat)
    (f : Nat → Except RepoErr Unit)
    (hf : ∀ i, f i = Except.error RepoErr.retry) (i : Nat) (hile : i ≤ maxRetry) :
    retryLoop maxRetry f i = (maxRetry + 1, Except.error RepoErr.retry) := by
  rw [retryLoop, hf i]
  show (if h : RepoErr.retry = RepoErr.retry ∧ i < maxRetry then
      retryLoop maxRetry f (i + 1)
    else (i + 1, Except.error RepoErr.retry)) =
      (maxRetry + 1, Except.error RepoErr.retry)
  by_cases hlt : i < maxRetry
  · rw [dif_pos ⟨rfl, hlt⟩]
    exact retryLoop_retry_exhausts maxRetry f hf (i + 1) hlt
  · rw [dif_neg (fun hc => hlt hc.2)]
    have hi : i = maxRetry := by omega
    rw [hi]
termination_by maxRetry - i
decreasing_by omega

/-- C3 (amended): a failed optimistic pre-image check (the UPDATE with
`WHERE id = :id AND rev = :rev` affects zero rows) makes `internalUpdate`
return a plain generic error, not a `RetryError`; the modify handler's
retry loop returns such an error to the client after a single attempt, and
only errors classified as `RetryError` (deadlocks, foreign-key races,
memberOf-removal inconsistencies) are retried, up to `maxRetry` extra
attempts. -/
theorem C3_amended (maxRetry : Nat) (id rev : Int)
    (memberOfAdd memberOfDel : List String) (issuer : String)
    (f g : Nat → Except RepoErr Unit)
    (hf : ∀ i, f i =
      (internalUpdateGo id rev 0 memberOfAdd memberOfDel issuer).map
        (fun _ => ()))
    (hg : ∀ i, g i = Except.error RepoErr.retry) :
    internalUpdateGo id rev 0 memberOfAdd memberOfDel issuer =
        Except.error RepoErr.generic ∧
      handleModifyLoop maxRetry f = (1, Except.error RepoErr.generic) ∧
      handleModifyLoop maxRetry g = (maxRetry + 1, Except.error RepoErr.retry) := by
  have hzero : internalUpdateGo id rev 0 memberOfAdd memberOfDel issuer =
      Except.error RepoErr.generic := by
    rw [internalUpdateGo, if_pos (by decide)]
  refine ⟨hzero, ?_, ?_⟩
  · rw [handleModifyLoop, retryLoop, hf 0, hzero]
    rfl
  · exact retryLoop_retry_exhausts maxRetry g hg 0 (Nat.zero_le _)

/-- C3 witness at a concrete input. -/
theorem C3_amended_witness :
    internalUpdateGo 9 4 0 [] [] "s" = Except.error RepoErr.generic ∧
      handleModifyLoop 3
          (fun _ => (internalUpdateGo 9 4 0 [] [] "s").map (fun _ => ())) =
        (1, Except.error RepoErr.generic) ∧
      handleModifyLoop 3 (fun _ => Except.error RepoErr.retry) =
        (4, Except.error RepoErr.retry) := by
  exact C3_amended 3 9 4 [] [] "s" _ _ (fun i => rfl) (fun i => rfl)

/-! ### `Bind` (the Bind file of the repo package)

`DefaultRepository.Bind` resolves the bind DN through the cache only, builds
a `FetchedCredential` and invokes the caller's credential check.  Every
durable-store write in its body (failure-time accounting, lockout stamping,
auth-timestamp recording) is commented out in the source, so the store state
`db` is threaded through unchanged on every path.  Error classification is
modelled by kind (the `util` error package is not under `src/`; kinds follow
the spec's taxonomy, §7). -/

inductive LdapErrKind where
  | invalidCredentials
  | noSuchObject
  | accountLocked
  | otherLdap
deriving DecidableEq, Repr

inductive BindErr where
  | ldap (k : LdapErrKind)
  | generic
deriving DecidableEq, Repr

def BindGo {α : Type} (db : α) (entryId : Option Int)
    (lockedTimeParseOk failureTimeParseOk ppolicyOk : Bool)
    (ppolicyLockoutEnabled : Bool) (callbackResult : Option BindErr) :
    α × Except BindErr Unit :=
  match entryId with
  | none =>
    -- `findEntryID` returned NoSuchObject: mapped to InvalidCredentials
    (db, Except.error (BindErr.ldap LdapErrKind.invalidCredentials))
  | some _ =>
    -- `findAttrsNormByID`: a missing cache document yields an empty
    -- attribute map, not an error; the fallible steps afterwards are the
    -- two timestamp parses and the ppolicy fetch
    if !lockedTimeParseOk then (db, Except.error BindErr.generic)
    else if !failureTimeParseOk then (db, Except.error BindErr.generic)
    else if !ppolicyOk then (db, Except.error BindErr.generic)
    else
      match callbackResult with
      | none =>
        -- success: the post-bind bookkeeping is commented out in the source
        (db, Except.ok ())
      | some e =>
        match e with
        | BindErr.ldap LdapErrKind.invalidCredentials =>
          -- the lockout accounting under `ppolicy.IsLockoutEnabled()` is
          -- commented out; with it disabled only a log line runs
          (db, Except.error e)
        | _ =>
          -- `return err` with `err = nil` at this point: a callback error
          -- that is not an LDAP InvalidCredentials is swallowed and the
          -- bind reports success (kept faithfully from the source)
          (db, Except.ok ())

/-- C10: `Bind` performs no write to the durable store on any path (the
state is returned unchanged for every combination of lookup results, parse
outcomes and callback results), and a bind DN that does not resolve in the
cache yields `InvalidCredentials`, not `NoSuchObject`. -/
theorem C10_bind_no_write_and_invalid_credentials {α : Type} (db : α)
    (entryId : Option Int)
    (lockedTimeParseOk failureTimeParseOk ppolicyOk : Bool)
    (ppolicyLockoutEnabled : Bool) (callbackResult : Option BindErr) :
    (BindGo db entryId lockedTimeParseOk failureTimeParseOk ppolicyOk
        ppolicyLockoutEnabled callbackResult).1 = db ∧
      (entryId = none →
        (BindGo db entryId lockedTimeParseOk failureTimeParseOk ppolicyOk
            ppolicyLockoutEnabled callbackResult).2 =
          Except.error (BindErr.ldap LdapErrKind.invalidCredentials)) ∧
      BindErr.ldap LdapErrKind.invalidCredentials ≠
        BindErr.ldap LdapErrKind.noSuchObject := by
  refine ⟨?_, ?_, by decide⟩
  · cases entryId with
    | none => rfl
    | some v =>
      cases lockedTimeParseOk <;> cases failureTimeParseOk <;> cases ppolicyOk <;>
        try rfl
      all_goals
        cases callbackResult with
        | none => rfl
        | some e =>
          cases e with
          | generic => rfl
          | ldap k => cases k <;> rfl
  · intro h
    subst h
    rfl

/-- C10 witness at a concrete input: an unresolved DN gives
InvalidCredentials and leaves the store untouched. -/
theorem C10_bind_witness :
    (BindGo (α := Nat) 42 none true true true false none).1 = 42 ∧
      (BindGo (α := Nat) 42 none true true true false none).2 =
        Except.error (BindErr.ldap LdapErrKind.invalidCredentials) := by
  have h := C10_bind_no_write_and_invalid_credentials (α := Nat) 42 none
    true true true false none
  exact ⟨h.1, h.2.1 rfl⟩

/-! ### `SchemaValue` and the `Changelog` diff (`src/unnamed/part_002`,
`repo/changelog.go`)

A `SchemaValue` is modelled by its parallel original/normalized value lists
(`value` / `normStr` in the source; `normIndex` is membership in the
normalized list) together with the attribute's single-value flag.
`SchemaValue.Normalize` rejects duplicate normalized values and
`NewSchemaValue` rejects multi-valued input for a single-valued attribute,
which is the well-formedness `SV.WF` below. -/

structure SV where
  single : Bool
  vals : List (String × String)
deriving DecidableEq, Repr

def SV.origs (s : SV) : List String := s.vals.map Prod.fst

def SV.norms (s : SV) : List String := s.vals.map Prod.snd

def SV.IsEmpty (s : SV) : Bool := s.vals.isEmpty

def SV.WF (s : SV) : Prop := s.norms.Nodup ∧ (s.single = true → s.vals.length ≤ 1)

/-- The result triple of `SchemaValue.Diff`; the Go `nil` slices are
`none` (the caller distinguishes `nil` from an empty non-nil slice). -/
structure DiffResult where
  add : Option (List String)
  repl : List String
  del : Option (List String)
deriving DecidableEq, Repr

/-- `SchemaValue.Diff`.  The Go code indexes `NormStr()[0]` for a
single-valued attribute; its callers only invoke it on non-empty values,
which `getD` makes total here. -/
def SV.Diff (s base : SV) : DiffResult :=
  if s.single && (s.norms.getD 0 "" == base.norms.getD 0 "") then
    { add := none, repl := [], del := none }
  else
    let add := (s.vals.filter (fun p => decide (p.2 ∉ base.norms))).map Prod.fst
    let del := (base.vals.filter (fun p => decide (p.2 ∉ s.norms))).map Prod.fst
    -- All deleted or new add => replace
    if del.length = base.norms.length then
      { add := none, repl := s.origs, del := none }
    else
      { add := some add, repl := [], del := some del }

structure ModOperation where
  Add : List String := []
  Replace : List String := []
  Delete : List String := []
deriving DecidableEq, Repr

def ModOperation.IsAdd (m : ModOperation) : Bool := !m.Add.isEmpty

def ModOperation.IsReplace (m : ModOperation) : Bool := !m.Replace.isEmpty

def ModOperation.IsDelete (m : ModOperation) : Bool := !m.Delete.isEmpty

def ModOperation.IsClear (m : ModOperation) : Bool :=
  !m.IsAdd && !m.IsReplace && !m.IsDelete

/-- The body of `Changelog.ToDiff` for one touched attribute: `nsv` is the
entry of `newEntry`, `osv` the entry of `oldEntry` (looked up under the
attribute's canonical name).  `none` means the loop assigns no operation
for the attribute. -/
def toDiffEntry (nsv osv : Option SV) : Option ModOperation :=
  match nsv with
  | none => some {}
  | some n =>
    if n.IsEmpty then
      -- Clear
      some {}
    else
      match osv with
      | none => some { Replace := n.origs }
      | some o =>
        if o.IsEmpty then some { Replace := n.origs }
        else
          let r := n.Diff o
          if r.add = none ∧ r.repl = [] ∧ r.del = none then
            -- Clear
            some {}
          else if r.repl ≠ [] then some { Replace := r.repl }
          else if (r.add.getD []) ≠ [] ∨ (r.del.getD []) ≠ [] then
            some { Add := r.add.getD [], Delete := r.del.getD [] }
          else none

/-- The `Changelog` state: the old-entry snapshot, the projected new entry
and the set of touched attribute names (all keyed by the canonical
attribute name). -/
structure Changelog where
  newEntry : List (String × SV)
  oldEntry : List (String × SV)
  changed : List String
deriving Repr

def lookupSV (m : List (String × SV)) (k : String) : Option SV :=
  (m.find? (fun p => p.1 == k)).map Prod.snd

/-- `Changelog.ToDiff`: apply `toDiffEntry` to every touched attribute. -/
def Changelog.ToDiff (c : Changelog) : List (String × ModOperation) :=
  c.changed.filterMap
    (fun k =>
      (toDiffEntry (lookupSV c.newEntry k) (lookupSV c.oldEntry k)).map
        (fun op => (k, op)))

/-- C2 counterexample: a touched single-valued attribute whose new value
set equals its old value set (here `sn = ["a"]` on both sides) produces a
clear operation, not "no operation": `Diff` returns the `(nil, nil, nil)`
triple and `ToDiff` maps it to the empty `ModOperation`, which `IsClear`
classifies as a clear (and `internalUpdate` renders as `'[]'::jsonb`),
even though the new value set is non-empty. -/
theorem C2_counterexample :
    Changelog.ToDiff
        { newEntry := [("sn", { single := true, vals := [("a", "a")] })],
          oldEntry := [("sn", { single := true, vals := [("a", "a")] })],
          changed := ["sn"] } =
      [("sn", { Add := [], Replace := [], Delete := [] })] ∧
      ModOperation.IsClear { Add := [], Replace := [], Delete := [] } = true ∧
      SV.IsEmpty { single := true, vals := [("a", "a")] } = false := by
  refine ⟨?_, rfl, rfl⟩
  rfl

theorem SV.norms_length (s : SV) : s.norms.length = s.vals.length := by
  simp [SV.norms]

theorem SV.vals_ne_nil {s : SV} (h : s.IsEmpty = false) : s.vals ≠ [] := by
  simpa [SV.IsEmpty, List.isEmpty_iff] using h

theorem SV.origs_ne_nil {s : SV} (h : s.IsEmpty = false) : s.origs ≠ [] := by
  have := SV.vals_ne_nil h
  simp [SV.origs]
  exact this

theorem SV.single_vals {s : SV} (hWF : s.WF) (hs : s.single = true)
    (h : s.IsEmpty = false) : ∃ a, s.vals = [a] := by
  have hne := SV.vals_ne_nil h
  have hle := hWF.2 hs
  cases hv : s.vals with
  | nil => exact absurd hv hne
  | cons a l =>
    cases l with
    | nil => exact ⟨a, rfl⟩
    | cons b l2 =>
      rw [hv] at hle
      simp at hle

theorem singleCond_iff (n o : SV) (hn : n.WF) (ho : o.WF)
    (hss : n.single = o.single) (hne : n.IsEmpty = false)
    (hoe : o.IsEmpty = false) :
    (n.single && (n.norms.getD 0 "" == o.norms.getD 0 "")) = true ↔
      (n.single = true ∧ n.norms = o.norms) := by
  constructor
  · rintro hcond
    rw [Bool.and_eq_true] at hcond
    obtain ⟨hs, hd⟩ := hcond
    refine ⟨hs, ?_⟩
    obtain ⟨a, ha⟩ := SV.single_vals hn hs hne
    obtain ⟨b, hb⟩ := SV.single_vals ho (hss ▸ hs) hoe
    rw [beq_iff_eq] at hd
    simp only [SV.norms, ha, hb, List.map_cons, List.map_nil] at hd ⊢
    simpa using hd
  · rintro ⟨hs, hnorm⟩
    rw [hs, hnorm]
    simp

theorem SV.mem_norms {s : SV} {x : String} :
    x ∈ s.norms ↔ ∃ p, p ∈ s.vals ∧ p.2 = x :=
  List.mem_map

theorem diff_replace_of_all_absent (n o : SV)
    (hnot : (n.single && (n.norms.getD 0 "" == o.norms.getD 0 "")) = false)
    (hall : ∀ p ∈ o.vals, p.2 ∉ n.norms) :
    n.Diff o = { add := none, repl := n.origs, del := none } := by
  have hcondneg : ¬ ((n.single && (n.norms.getD 0 "" == o.norms.getD 0 "")) = true) := by
    rw [hnot]; simp
  rw [SV.Diff, if_neg hcondneg]
  have hfil : (o.vals.filter (fun p => decide (p.2 ∉ n.norms))) = o.vals :=
    List.filter_eq_self.mpr (fun p hp => by simp [hall p hp])
  have hlen : ((o.vals.filter (fun p => decide (p.2 ∉ n.norms))).map Prod.fst).length =
      o.norms.length := by
    rw [hfil, List.length_map, SV.norms_length]
  rw [if_pos hlen]

theorem diff_adddel_of_common (n o : SV)
    (hnot : (n.single && (n.norms.getD 0 "" == o.norms.getD 0 "")) = false)
    (hex : ∃ p ∈ o.vals, p.2 ∈ n.norms) :
    n.Diff o =
      { add := some ((n.vals.filter (fun p => decide (p.2 ∉ o.norms))).map Prod.fst),
        repl := [],
        del := some ((o.vals.filter (fun p => decide (p.2 ∉ n.norms))).map Prod.fst) } := by
  have hcondneg : ¬ ((n.single && (n.norms.getD 0 "" == o.norms.getD 0 "")) = true) := by
    rw [hnot]; simp
  rw [SV.Diff, if_neg hcondneg]
  obtain ⟨p, hp, hpmem⟩ := hex
  have hlt :
      (o.vals.filter (fun q => decide (q.2 ∉ n.norms))).length < o.vals.length := by
    rcases Nat.lt_or_ge
        (o.vals.filter (fun q => decide (q.2 ∉ n.norms))).length o.vals.length with
      h | h
    · exact h
    · exfalso
      have hle := (List.filter_sublist (l := o.vals)
        (p := fun q => decide (q.2 ∉ n.norms))).length_le
      have heqlen :
          (o.vals.filter (fun q => decide (q.2 ∉ n.norms))).length =
            o.vals.length := by omega
      have heq := (List.filter_sublist (l := o.vals)
        (p := fun q => decide (q.2 ∉ n.norms))).eq_of_length heqlen
      have := List.filter_eq_self.mp heq p hp
      simp at this
      exact this hpmem
  have hlenne :
      ¬ (((o.vals.filter (fun q => decide (q.2 ∉ n.norms))).map Prod.fst).length =
        o.norms.length) := by
    rw [List.length_map, SV.norms_length]
    omega
  rw [if_neg hlenne]

/-- C2 (amended): for every touched attribute of a `Changelog` (new and
old `SchemaValue` well formed, sharing the attribute's single-value flag),
`ToDiff` emits a clear operation exactly when the attribute's new value set
is empty **or** the attribute is single-valued with unchanged normalized
value; a replace carrying the new values exactly when the new set is
non-empty and (outside the single-valued-unchanged case) every old value is
absent from it; no operation for a multi-valued attribute whose new value
set equals its old value set; and otherwise an add of the values present
only in the new set and/or a delete of the values present only in the old
set. -/
theorem C2_amended (n o : SV) (hn : n.WF) (ho : o.WF)
    (hss : n.single = o.single) (hne : n.IsEmpty = false)
    (hoe : o.IsEmpty = false) :
    -- (i) the single-valued exception: an unchanged single value clears
    (n.single = true → n.norms = o.norms →
      toDiffEntry (some n) (some o) = some {}) ∧
    -- (ii) replace iff every old normalized value is absent from the new set
    (¬ (n.single = true ∧ n.norms = o.norms) →
      ((∀ x ∈ o.norms, x ∉ n.norms) ↔
        toDiffEntry (some n) (some o) = some { Replace := n.origs })) ∧
    -- (iii) equal multi-valued value sets produce no operation
    (n.single = false → n.norms ⊆ o.norms → o.norms ⊆ n.norms →
      toDiffEntry (some n) (some o) = none) ∧
    -- (iv) otherwise add/delete of the one-sided values, at least one of
    -- them non-empty
    (¬ (n.single = true ∧ n.norms = o.norms) →
      (∃ x ∈ o.norms, x ∈ n.norms) →
      ¬ (n.norms ⊆ o.norms ∧ o.norms ⊆ n.norms) →
      toDiffEntry (some n) (some o) =
        some { Add := (n.vals.filter (fun p => decide (p.2 ∉ o.norms))).map Prod.fst,
               Replace := [],
               Delete := (o.vals.filter (fun p => decide (p.2 ∉ n.norms))).map Prod.fst } ∧
        ((n.vals.filter (fun p => decide (p.2 ∉ o.norms))).map Prod.fst ≠ [] ∨
          (o.vals.filter (fun p => decide (p.2 ∉ n.norms))).map Prod.fst ≠ [])) ∧
    -- (v) an absent or empty new value set clears; an absent or empty old
    -- value set (with non-empty new set) replaces with the new values
    ((∀ osv : Option SV, toDiffEntry none osv = some {}) ∧
      (∀ m : SV, m.IsEmpty = true → ∀ osv : Option SV,
        toDiffEntry (some m) osv = some {}) ∧
      toDiffEntry (some n) none = some { Replace := n.origs }) := by
  have hsingle_iff := singleCond_iff n o hn ho hss hne hoe
  refine ⟨?_, ?_, ?_, ?_, ?_, ?_, ?_⟩
  · -- (i)
    intro hs hnorm
    have hcond : (n.single && (n.norms.getD 0 "" == o.norms.getD 0 "")) = true :=
      hsingle_iff.mpr ⟨hs, hnorm⟩
    simp only [toDiffEntry, hne, Bool.false_eq_true, if_false, hoe]
    rw [SV.Diff, if_pos hcond]
    simp
  · -- (ii)
    intro hnsingle
    have hcondf : (n.single && (n.norms.getD 0 "" == o.norms.getD 0 "")) = false := by
      rcases h : (n.single && (n.norms.getD 0 "" == o.norms.getD 0 "")) with _ | _
      · rfl
      · exact absurd (hsingle_iff.mp h) hnsingle
    constructor
    · intro hall
      have hall2 : ∀ p ∈ o.vals, p.2 ∉ n.norms := by
        intro p hp
        exact hall p.2 (SV.mem_norms.mpr ⟨p, hp, rfl⟩)
      have hdiff := diff_replace_of_all_absent n o hcondf hall2
      simp only [toDiffEntry, hne, Bool.false_eq_true, if_false, hoe, hdiff]
      rw [if_neg (by simp [SV.origs_ne_nil hne])]
      rw [if_pos (by simp [SV.origs_ne_nil hne])]
    · intro hres
      by_contra hnotall
      push_neg at hnotall
      obtain ⟨x, hxo, hxn⟩ := hnotall
      have hex : ∃ p ∈ o.vals, p.2 ∈ n.norms := by
        obtain ⟨p, hp, hpx⟩ := SV.mem_norms.mp hxo
        exact ⟨p, hp, by rw [hpx]; exact hxn⟩
      have hdiff := diff_adddel_of_common n o hcondf hex
      simp only [toDiffEntry, hne, Bool.false_eq_true, if_false, hoe, hdiff] at hres
      rw [if_neg (by simp)] at hres
      rw [if_neg (by simp)] at hres
      by_cases hc : ((n.vals.filter (fun p => decide (p.2 ∉ o.norms))).map Prod.fst ≠ [] ∨
          (o.vals.filter (fun p => decide (p.2 ∉ n.norms))).map Prod.fst ≠ [])
      · rw [if_pos (by simpa using hc)] at hres
        simp only [Option.some.injEq, ModOperation.mk.injEq] at hres
        exact SV.origs_ne_nil hne hres.2.1.symm
      · rw [if_neg (by simpa using hc)] at hres
        cases hres
  · -- (iii)
    intro hs hsub1 hsub2
    have hcondf : (n.single && (n.norms.getD 0 "" == o.norms.getD 0 "")) = false := by
      simp [hs]
    have hcondneg : ¬ ((n.single && (n.norms.getD 0 "" == o.norms.getD 0 "")) = true) := by
      rw [hcondf]; simp
    have haddnil : (n.vals.filter (fun p => decide (p.2 ∉ o.norms))) = [] := by
      rw [List.filter_eq_nil_iff]
      intro p hp
      simp only [decide_eq_true_eq, not_not]
      exact hsub1 (SV.mem_norms.mpr ⟨p, hp, rfl⟩)
    have hdelnil : (o.vals.filter (fun p => decide (p.2 ∉ n.norms))) = [] := by
      rw [List.filter_eq_nil_iff]
      intro p hp
      simp only [decide_eq_true_eq, not_not]
      exact hsub2 (SV.mem_norms.mpr ⟨p, hp, rfl⟩)
    have hlenne :
        ¬ (((o.vals.filter (fun q => decide (q.2 ∉ n.norms))).map Prod.fst).length =
          o.norms.length) := by
      rw [hdelnil, SV.norms_length]
      simp only [List.map_nil, List.length_nil]
      intro hlen
      exact SV.vals_ne_nil hoe (List.length_eq_zero.mp hlen.symm)
    have hdiff : n.Diff o = { add := some [], repl := [], del := some [] } := by
      rw [SV.Diff, if_neg hcondneg, if_neg hlenne]
      rw [haddnil, hdelnil]
      rfl
    simp only [toDiffEntry, hne, Bool.false_eq_true, if_false, hoe, hdiff]
    rw [if_neg (by simp)]
    rw [if_neg (by simp)]
    rw [if_neg (by simp)]
  · -- (iv)
    intro hnsingle hcommon hnoteq
    have hcondf : (n.single && (n.norms.getD 0 "" == o.norms.getD 0 "")) = false := by
      rcases h : (n.single && (n.norms.getD 0 "" == o.norms.getD 0 "")) with _ | _
      · rfl
      · exact absurd (hsingle_iff.mp h) hnsingle
    have hex : ∃ p ∈ o.vals, p.2 ∈ n.norms := by
      obtain ⟨x, hxo, hxn⟩ := hcommon
      obtain ⟨p, hp, hpx⟩ := SV.mem_norms.mp hxo
      exact ⟨p, hp, by rw [hpx]; exact hxn⟩
    have hdiff := diff_adddel_of_common n o hcondf hex
    have hnonempty :
        (n.vals.filter (fun p => decide (p.2 ∉ o.norms))).map Prod.fst ≠ [] ∨
          (o.vals.filter (fun p => decide (p.2 ∉ n.norms))).map Prod.fst ≠ [] := by
      rw [not_and_or] at hnoteq
      rcases hnoteq with h | h
      · left
        rw [List.subset_def] at h
        push_neg at h
        obtain ⟨x, hxn, hxo⟩ := h
        obtain ⟨p, hp, hpx⟩ := SV.mem_norms.mp hxn
        have hmem : p ∈ n.vals.filter (fun q => decide (q.2 ∉ o.norms)) := by
          rw [List.mem_filter]
          exact ⟨hp, by simp [hpx, hxo]⟩
        simp only [ne_eq, List.map_eq_nil_iff]
        intro hnil
        rw [hnil] at hmem
        cases hmem
      · right
        rw [List.subset_def] at h
        push_neg at h
        obtain ⟨x, hxo, hxn⟩ := h
        obtain ⟨p, hp, hpx⟩ := SV.mem_norms.mp hxo
        have hmem : p ∈ o.vals.filter (fun q => decide (q.2 ∉ n.norms)) := by
          rw [List.mem_filter]
          exact ⟨hp, by simp [hpx, hxn]⟩
        simp only [ne_eq, List.map_eq_nil_iff]
        intro hnil
        rw [hnil] at hmem
        cases hmem
    refine ⟨?_, hnonempty⟩
    simp only [toDiffEntry, hne, Bool.false_eq_true, if_false, hoe, hdiff]
    rw [if_neg (by simp)]
    rw [if_neg (by simp)]
    rw [if_pos (by simpa using hnonempty)]
    rfl
  · -- (v) first part
    intro osv
    rfl
  · -- (v) second part
    intro m hm osv
    simp [toDiffEntry, hm]
  · -- (v) third part
    simp [toDiffEntry, hne]

/-- C2 witness at a concrete input: replacing one value of a multi-valued
attribute by another yields an add of the new-only value and a delete of
the old-only value. -/
theorem C2_amended_witness :
    toDiffEntry (some { single := false, vals := [("a", "a"), ("b", "b")] })
        (some { single := false, vals := [("a", "a"), ("c", "c")] }) =
      some { Add := ["b"], Replace := [], Delete := ["c"] } := by
  have h := (C2_amended
    { single := false, vals := [("a", "a"), ("b", "b")] }
    { single := false, vals := [("a", "a"), ("c", "c")] }
    (by constructor <;> simp [SV.norms])
    (by constructor <;> simp [SV.norms])
    rfl rfl rfl).2.2.2.1
    (by simp)
    (by refine ⟨"a", by simp [SV.norms], by simp [SV.norms]⟩)
    (by
      intro hsub
      have := hsub.1 (show "b" ∈ SV.norms { single := false, vals := [("a", "a"), ("b", "b")] } by
        simp [SV.norms])
      simp [SV.norms] at this)
  rw [h.1]
  rfl

/-! ### `Changelog.Delete` / `deletesv` / `SchemaValue.Delete`
(`repo/changelog.go`, `src/unnamed/part_002`) -/

inductive SchemaErr where
  | noSuchAttribute
deriving DecidableEq, Repr

/-- `SchemaValue.Delete`: first every given normalized value is checked for
presence in `normIndex` (any missing value aborts with `NoSuchAttribute`
before anything is mutated), then the matched values are removed. -/
def SV.Delete (s value : SV) : Except SchemaErr SV :=
  if value.norms.any (fun v => decide (v ∉ s.norms)) then
    Except.error SchemaErr.noSuchAttribute
  else
    Except.ok { s with vals := s.vals.filter (fun p => decide (p.2 ∉ value.norms)) }

/-- `SchemaValue.Clear`. -/
def SV.Clear (s : SV) : SV := { s with vals := [] }

/-- `Changelog.deletesv`: an empty value set dispatches to `deleteAll`
(which requires the attribute to be present and non-empty, then clears
it); a non-empty value set requires the attribute to be present and
delegates to `SchemaValue.Delete`. -/
def deletesv (current : Option SV) (value : SV) : Except SchemaErr (Option SV) :=
  if value.IsEmpty then
    match current with
    | none => Except.error SchemaErr.noSuchAttribute
    | some cur =>
      if cur.IsEmpty then Except.error SchemaErr.noSuchAttribute
      else Except.ok (some cur.Clear)
  else
    match current with
    | none => Except.error SchemaErr.noSuchAttribute
    | some cur => (cur.Delete value).map some

/-- C6: `Delete` with a non-empty value set fails with `NoSuchAttribute`
whenever some given value is not currently present on the target attribute
(including an absent attribute) — and, failing, produces no new attribute
state (the source checks all values before mutating); `Delete` with an
empty value set clears a present attribute, removing all of its values. -/
theorem C6_delete (current : Option SV) (value : SV) :
    (value.IsEmpty = false →
      (∃ v ∈ value.norms,
        v ∉ (match current with | some c => c.norms | none => ([] : List String))) →
      deletesv current value = Except.error SchemaErr.noSuchAttribute) ∧
    (value.IsEmpty = true → ∀ cur, current = some cur → cur.IsEmpty = false →
      deletesv current value = Except.ok (some cur.Clear) ∧ cur.Clear.vals = []) := by
  constructor
  · intro hv hmiss
    rw [deletesv.eq_def, if_neg (by simp [hv])]
    cases current with
    | none => rfl
    | some cur =>
      obtain ⟨v, hvmem, hvabs⟩ := hmiss
      have hany : value.norms.any (fun v => decide (v ∉ cur.norms)) = true := by
        rw [List.any_eq_true]
        exact ⟨v, hvmem, by simpa using hvabs⟩
      show (cur.Delete value).map some = Except.error SchemaErr.noSuchAttribute
      rw [SV.Delete, if_pos hany]
      rfl
  · intro hv cur hcur hce
    subst hcur
    refine ⟨?_, rfl⟩
    rw [deletesv.eq_def, if_pos (by simp [hv])]
    show (if cur.IsEmpty = true then Except.error SchemaErr.noSuchAttribute
      else Except.ok (some cur.Clear)) = Except.ok (some cur.Clear)
    rw [if_neg (by simp [hce])]

/-- C6 witness at concrete inputs: deleting a value that is absent fails
with `NoSuchAttribute`, and an empty-value delete clears the attribute. -/
theorem C6_delete_witness :
    deletesv (some { single := false, vals := [("A", "a")] })
        { single := false, vals := [("B", "b")] } =
      Except.error SchemaErr.noSuchAttribute ∧
    deletesv (some { single := false, vals := [("A", "a"), ("B", "b")] })
        { single := false, vals := [] } =
      Except.ok (some { single := false, vals := [] }) := by
  constructor
  · exact (C6_delete (some { single := false, vals := [("A", "a")] })
      { single := false, vals := [("B", "b")] }).1 rfl
      ⟨"b", by simp [SV.norms], by simp [SV.norms]⟩
  · exact ((C6_delete (some { single := false, vals := [("A", "a"), ("B", "b")] })
      { single := false, vals := [] }).2 rfl
      { single := false, vals := [("A", "a"), ("B", "b")] } rfl rfl).1

/-! ### Value normalization helpers (`schema/util.go`)

`normalizeSpace` is `SPACE_PATTERN.ReplaceAllString(value, " ")` (collapse
every run of `\s` characters into one space) followed by
`strings.Trim(str, " ")` (drop leading and trailing spaces);
`removeAllSpace` replaces every `\s` run by the empty string. -/

def collapseSpace : List Char → List Char
  | [] => []
  | [c] => if isSpaceGo c then [' '] else [c]
  | c :: d :: rest =>
    if isSpaceGo c then
      if isSpaceGo d then collapseSpace (d :: rest)
      else ' ' :: collapseSpace (d :: rest)
    else c :: collapseSpace (d :: rest)

def isBlankChar (c : Char) : Bool := c == ' '

/-- Remove the trailing run of characters satisfying `p`. -/
def dropTrailWhile (p : Char → Bool) : List Char → List Char
  | [] => []
  | c :: t =>
    let r := dropTrailWhile p t
    if r.isEmpty && p c then [] else c :: r

def trimSpace (l : List Char) : List Char :=
  dropTrailWhile isBlankChar (l.dropWhile isBlankChar)

def normalizeSpace (l : List Char) : List Char := trimSpace (collapseSpace l)

def removeAllSpace (l : List Char) : List Char := l.filter (fun c => !isSpaceGo c)

/-! ### Decimal integers (Go `strconv.ParseInt`/`FormatInt`, base 10,
64-bit) -/

def digitVal (c : Char) : Option Nat :=
  if 48 ≤ c.toNat ∧ c.toNat ≤ 57 then some (c.toNat - 48) else none

def parseDigitsAux (acc : Nat) : List Char → Option Nat
  | [] => some acc
  | c :: cs =>
    match digitVal c with
    | none => none
    | some d => parseDigitsAux (acc * 10 + d) cs

def parseDigits (l : List Char) : Option Nat :=
  if l.isEmpty then none else parseDigitsAux 0 l

def natDec (n : Nat) : List Char :=
  if n < 10 then [Nat.digitChar n]
  else natDec (n / 10) ++ [Nat.digitChar (n % 10)]

def intDec (i : Int) : List Char :=
  if i < 0 then '-' :: natDec (-i).toNat else natDec i.toNat

/-- `strconv.ParseInt(value, 10, 64)`: optional sign, then decimal digits;
an empty digit string or a value outside the signed 64-bit range is an
error. -/
def parseIntGo (s : List Char) : Option Int :=
  match s with
  | [] => none
  | c :: rest =>
    if c = '+' then
      (parseDigits rest).bind
        (fun n => if n ≤ 2 ^ 63 - 1 then some ((n : Int)) else none)
    else if c = '-' then
      (parseDigits rest).bind
        (fun n => if n ≤ 2 ^ 63 then some (-(n : Int)) else none)
    else
      (parseDigits s).bind
        (fun n => if n ≤ 2 ^ 63 - 1 then some ((n : Int)) else none)

/-! ### Hex, UUID and boolean normalization (`schema/util.go`,
`google/uuid`) -/

def hexVal (c : Char) : Option Nat :=
  if 48 ≤ c.toNat ∧ c.toNat ≤ 57 then some (c.toNat - 48)
  else if 97 ≤ c.toNat ∧ c.toNat ≤ 102 then some (c.toNat - 87)
  else if 65 ≤ c.toNat ∧ c.toNat ≤ 70 then some (c.toNat - 55)
  else none

def isHexDigitGo (c : Char) : Bool := (hexVal c).isSome

def hexPair (c1 c2 : Char) : Option Char :=
  match hexVal c1, hexVal c2 with
  | some h1, some h2 => some (Char.ofNat (16 * h1 + h2))
  | _, _ => none

def hexDecodeList : List Char → Option (List Char)
  | [] => some []
  | [_] => none
  | c1 :: c2 :: rest =>
    match hexPair c1 c2, hexDecodeList rest with
    | some b, some bs => some (b :: bs)
    | _, _ => none

/-- `normalizeBoolean`: only the literals `TRUE` and `FALSE` are accepted
and returned unchanged. -/
def normalizeBoolean (v : List Char) : Option (List Char) :=
  if v = "TRUE".data ∨ v = "FALSE".data then some v else none

/-- Consume exactly `n` hex digits and return the rest of the list. -/
def hexChunk : Nat → List Char → Option (List Char)
  | 0, rest => some rest
  | n + 1, c :: rest => if isHexDigitGo c then hexChunk n rest else none
  | _ + 1, [] => none

/-- Consume one `-`. -/
def dashChunk : List Char → Option (List Char)
  | '-' :: r => some r
  | _ => none

/-- The canonical 8-4-4-4-12 shape: 36 characters, dashes at positions
8, 13, 18 and 23, hex digits elsewhere. -/
def uuid36Ok (l : List Char) : Bool :=
  ((((((((hexChunk 8 l).bind dashChunk).bind (hexChunk 4)).bind dashChunk).bind
    (hexChunk 4)).bind dashChunk).bind (hexChunk 4)).bind dashChunk).bind
      (hexChunk 12) == some []

/-- `uuid.Parse` followed by `u.String()`: the accepted forms are the
canonical 36-character form, `urn:uuid:` + 36, `{` + 36 + `}`, and 32 bare
hex digits; the output is the canonical form in lower case. -/
def uuidParse (l : List Char) : Option (List Char) :=
  if uuid36Ok l then some (lowerStr l)
  else if l.length = 45 ∧ lowerStr (l.take 9) = "urn:uuid:".data ∧
      uuid36Ok (l.drop 9) then
    some (lowerStr (l.drop 9))
  else if l.length = 38 ∧ l.getD 0 ' ' = '{' ∧ l.getD 37 ' ' = '}' ∧
      uuid36Ok ((l.drop 1).take 36) then
    some (lowerStr ((l.drop 1).take 36))
  else if l.length = 32 ∧ l.all isHexDigitGo then
    some (lowerStr
      (l.take 8 ++ '-' :: ((l.drop 8).take 4 ++ '-' :: ((l.drop 12).take 4 ++
        '-' :: ((l.drop 16).take 4 ++ '-' :: l.drop 20)))))
  else none

/-! ### Generalized time (`normalizeGeneralizedTime`, Go `time.Parse` with
layout `20060102150405Z`) -/

def isLeapYear (y : Int) : Bool :=
  (y % 4 == 0 && y % 100 != 0) || y % 400 == 0

def daysInMonth (y m : Int) : Int :=
  if m = 2 then (if isLeapYear y then 29 else 28)
  else if m = 4 ∨ m = 6 ∨ m = 9 ∨ m = 11 then 30
  else 31

/-- Days since 1970-01-01 of the civil date `(y, m, d)` (the standard
days-from-civil computation). -/
def daysFromCivil (y m d : Int) : Int :=
  let y2 := if m ≤ 2 then y - 1 else y
  let era := y2 / 400
  let yoe := y2 - era * 400
  let doy := (153 * (m + (if m > 2 then -3 else 9)) + 2) / 5 + d - 1
  let doe := yoe * 365 + yoe / 4 - yoe / 100 + doy
  era * 146097 + doe - 719468

def parse2 (a b : Char) : Option Nat :=
  match digitVal a, digitVal b with
  | some x, some y => some (10 * x + y)
  | _, _ => none

/-- `time.Parse(TIMESTAMP_FORMAT, value)` followed by `.Unix()`: the layout
`20060102150405Z` requires a 4-digit year, 2 digits each for month, day,
hour, minute and second, and a literal `Z`; the components are
range-checked and converted to seconds since the epoch (UTC). -/
def parseGeneralizedTime (v : List Char) : Option Int :=
  match v with
  | [y1, y2, y3, y4, mo1, mo2, d1, d2, h1, h2, mi1, mi2, s1, s2, z] =>
    if z = 'Z' then
      match parse2 y1 y2, parse2 y3 y4, parse2 mo1 mo2, parse2 d1 d2,
          parse2 h1 h2, parse2 mi1 mi2, parse2 s1 s2 with
      | some yh, some yl, some mo, some d, some h, some mi, some s =>
        let y : Int := yh * 100 + yl
        if 1 ≤ (mo : Int) ∧ (mo : Int) ≤ 12 ∧ 1 ≤ (d : Int) ∧
            (d : Int) ≤ daysInMonth y mo ∧ h ≤ 23 ∧ mi ≤ 59 ∧ s ≤ 59 then
          some (daysFromCivil y mo d * 86400 + h * 3600 + mi * 60 + s)
        else none
      | _, _, _, _, _, _, _ => none
    else none
  | _ => none

/-! ### The DN model and `ParseDN` (`schema/util.go`, the DN file of the
schema package)

Strings are lists of characters; a hex escape decodes to the character
with the escaped byte's code point.  The BER fast path (`=#...`) is
modelled by an oracle `ber` standing for `enchex.DecodeString` followed by
`ber.DecodePacketErr(...)` and `packet.Data.String()`: the hex decoding is
real (`hexDecodeList`), the packet-content extraction is the oracle, and
every theorem below holds for every oracle, hence for the real one.

The attribute registry consulted by `NewSchemaValue` inside
`stringValueFromBuffer` is built from the OpenLDAP 2.4 schema blob, which
is not under `src/`.  `knownAttrs`/`normValue` are modelled from the spec:
the registry maps these core attribute names to the `caseIgnoreMatch`
equality rule (lowercase + collapse/trim), per the normalization table of
§4.2. -/

structure ATV where
  TypeOrig : List Char
  TypeNorm : List Char
  ValueOrig : List Char
  ValueNorm : List Char
deriving DecidableEq, Repr

structure RelativeDN where
  Attributes : List ATV
deriving DecidableEq, Repr

structure DN where
  RDNs : List RelativeDN
deriving DecidableEq, Repr

/-- Modelled from the spec: the schema registry's attribute names used in
DNs, all with the `caseIgnoreMatch` equality rule (§4.2); the real registry
parses the OpenLDAP 2.4 core schema, which is not part of the staged
sources. -/
def knownAttrs : List (List Char) :=
  ["cn".data, "dc".data, "ou".data, "sn".data, "uid".data, "o".data,
    "l".data, "st".data, "mail".data]

/-- Modelled from the spec: `NewSchemaValue(sr, t, [orig]).NormStr()[0]`
for a DN attribute value — fails when the attribute type is unknown,
otherwise normalizes per `caseIgnoreMatch`. -/
def normValue (tNorm v : List Char) : Option (List Char) :=
  if tNorm ∈ knownAttrs then some (lowerStr (normalizeSpace v)) else none

/-- The characters that stand for themselves after a backslash. -/
def escSpecials : List Char := [' ', '"', '#', '+', ',', ';', '<', '=', '>', '\\']

structure PState where
  rdns : List RelativeDN
  attrs : List ATV
  tOrig : List Char
  tNorm : List Char
  buf : List Char
  trail : Nat
deriving Repr

def initPState : PState := ⟨[], [], [], [], [], 0⟩

/-- `stringTypeFromBuffer`: the buffer minus its unescaped trailing
spaces. -/
def bufValue (st : PState) : List Char := st.buf.take (st.buf.length - st.trail)

/-- The end of the parse loop: a non-empty buffer flushes the pending
attribute (requiring a type) and closes the pending RDN; an empty buffer
discards both. -/
def finishDN (st : PState) : Except Unit DN :=
  if st.buf.isEmpty then Except.ok ⟨st.rdns⟩
  else if st.tOrig.isEmpty then Except.error ()
  else
    match normValue st.tNorm (bufValue st) with
    | none => Except.error ()
    | some nv =>
      Except.ok
        ⟨st.rdns ++ [⟨st.attrs ++ [⟨st.tOrig, st.tNorm, bufValue st, nv⟩]⟩]⟩

/-- One character-consuming pass of `ParseDN`'s loop (with the `escaping`
flag handled by two-character lookahead, and the BER fast path by the
`ber` oracle). -/
def runDN (ber : List Char → Option (List Char)) (st : PState) :
    List Char → Except Unit DN
  | [] => finishDN st
  | ['\\'] =>
    -- the loop ends with `escaping` still set; the final flush sees the
    -- buffer as it is
    finishDN st
  | ['\\', c1] =>
    if c1 ∈ escSpecials then
      runDN ber ⟨st.rdns, st.attrs, st.tOrig, st.tNorm, st.buf ++ [c1], 0⟩ []
    else Except.error ()
  | '\\' :: c1 :: c2 :: rest2 =>
    if c1 ∈ escSpecials then
      runDN ber ⟨st.rdns, st.attrs, st.tOrig, st.tNorm, st.buf ++ [c1], 0⟩ (c2 :: rest2)
    else
      match hexPair c1 c2 with
      | none => Except.error ()
      | some ch =>
        runDN ber ⟨st.rdns, st.attrs, st.tOrig, st.tNorm, st.buf ++ [ch], 0⟩ rest2
  | '=' :: '#' :: rest1 =>
    -- BER-encoded value: hex data runs to the first `,` or `+` (when the
    -- first character already is a separator, or there is none, the whole
    -- remainder is taken)
    let t := bufValue st
    let pre := rest1.takeWhile (fun x => decide (x ≠ ',' ∧ x ≠ '+'))
    let data := if 0 < pre.length ∧ pre.length < rest1.length then pre else rest1
    (match hexDecodeList data with
    | none => Except.error ()
    | some bytes =>
      match ber bytes with
      | none => Except.error ()
      | some content =>
        runDN ber ⟨st.rdns, st.attrs, t, lowerStr t, content, 0⟩
          (rest1.drop data.length))
  | '=' :: other =>
    runDN ber ⟨st.rdns, st.attrs, bufValue st, lowerStr (bufValue st), [], 0⟩ other
  | c :: rest =>
    if c = ',' ∨ c = '+' then
      if st.tOrig.isEmpty then Except.error ()
      else
        match normValue st.tNorm (bufValue st) with
        | none => Except.error ()
        | some nv =>
          let attr : ATV := ⟨st.tOrig, st.tNorm, bufValue st, nv⟩
          if c = ',' then
            runDN ber ⟨st.rdns ++ [⟨st.attrs ++ [attr]⟩], [], [], [], [], 0⟩ rest
          else
            runDN ber ⟨st.rdns, st.attrs ++ [attr], [], [], [], 0⟩ rest
    else if c = ' ' ∧ st.buf.isEmpty then
      -- ignore unescaped leading spaces
      runDN ber st rest
    else
      runDN ber
        ⟨st.rdns, st.attrs, st.tOrig, st.tNorm, st.buf ++ [c],
          if c = ' ' then st.trail + 1 else 0⟩ rest
termination_by l => l.length
decreasing_by
  all_goals simp_wf
  all_goals try simp only [List.length_cons, List.length_drop]
  all_goals omega

/-- `ParseDN`. -/
def ParseDN (ber : List Char → Option (List Char)) (s : List Char) :
    Except Unit DN :=
  runDN ber initPState s

/-- `NormalizeDN`: the empty string is the anonymous DN. -/
def NormalizeDN (ber : List Char → Option (List Char)) (s : List Char) :
    Except Unit DN :=
  if s.isEmpty then Except.ok ⟨[]⟩ else ParseDN ber s

/-- `RelativeDN.OrigEncodedStr`: `TypeOrig=encodeDN(ValueOrig)` joined by
`+` (`ValueOrigEncoded` is `encodeDN` of the original value, as set by the
parse). -/
def RelativeDN.OrigEncodedStr (r : RelativeDN) : List Char :=
  List.intercalate ['+']
    (r.Attributes.map (fun a => a.TypeOrig ++ '=' :: encodeDN a.ValueOrig))

/-- `DN.DNOrigStr`. -/
def DN.DNOrigStr (d : DN) : List Char :=
  List.intercalate [','] (d.RDNs.map RelativeDN.OrigEncodedStr)

/-- `RelativeDN.NormStr`: `TypeNorm=ValueNorm` joined by `+`. -/
def RelativeDN.NormStr (r : RelativeDN) : List Char :=
  List.intercalate ['+']
    (r.Attributes.map (fun a => a.TypeNorm ++ '=' :: a.ValueNorm))

/-- `DN.DNNormStr`. -/
def DN.DNNormStr (d : DN) : List Char :=
  List.intercalate [','] (d.RDNs.map RelativeDN.NormStr)

/-! ### Branch unfolding equations for `runDN` -/

set_option maxHeartbeats 1000000

theorem runDN_nil (ber : List Char → Option (List Char)) (st : PState) :
    runDN ber st [] = finishDN st := by
  rw [runDN.eq_def]

theorem runDN_esc_end (ber : List Char → Option (List Char)) (st : PState) :
    runDN ber st ['\\'] = finishDN st := by
  rw [runDN.eq_def]
  rfl

theorem runDN_esc_special1 (ber : List Char → Option (List Char)) (st : PState)
    (c1 : Char) (h : c1 ∈ escSpecials) :
    runDN ber st ['\\', c1] =
      runDN ber ⟨st.rdns, st.attrs, st.tOrig, st.tNorm, st.buf ++ [c1], 0⟩ [] := by
  rw [runDN.eq_def]
  simp only [if_pos h]

theorem runDN_esc_special (ber : List Char → Option (List Char)) (st : PState)
    (c1 c2 : Char) (rest2 : List Char) (h : c1 ∈ escSpecials) :
    runDN ber st ('\\' :: c1 :: c2 :: rest2) =
      runDN ber ⟨st.rdns, st.attrs, st.tOrig, st.tNorm, st.buf ++ [c1], 0⟩
        (c2 :: rest2) := by
  rw [runDN.eq_def]
  simp only [if_pos h]

theorem runDN_esc_hex (ber : List Char → Option (List Char)) (st : PState)
    (c1 c2 : Char) (rest2 : List Char) (h : ¬(c1 ∈ escSpecials)) :
    runDN ber st ('\\' :: c1 :: c2 :: rest2) =
      (match hexPair c1 c2 with
      | none => Except.error ()
      | some ch =>
        runDN ber ⟨st.rdns, st.attrs, st.tOrig, st.tNorm, st.buf ++ [ch], 0⟩ rest2) := by
  rw [runDN.eq_def]
  simp only [if_neg h]

theorem runDN_eq_nil (ber : List Char → Option (List Char)) (st : PState) :
    runDN ber st ['='] =
      runDN ber ⟨st.rdns, st.attrs, bufValue st, lowerStr (bufValue st), [], 0⟩ [] := by
  rw [runDN.eq_def]
  rfl

theorem runDN_eq_cons (ber : List Char → Option (List Char)) (st : PState)
    (c : Char) (r : List Char) (h : c ≠ '#') :
    runDN ber st ('=' :: c :: r) =
      runDN ber ⟨st.rdns, st.attrs, bufValue st, lowerStr (bufValue st), [], 0⟩
        (c :: r) := by
  rw [runDN.eq_def]
  split
  · next heq => exact absurd heq (by simp)
  · next heq => exact absurd heq (by simp)
  · next heq => exact absurd heq (by simp)
  · next heq => exact absurd heq (by simp)
  · next heq =>
    obtain ⟨h1, h2⟩ := List.cons.inj heq
    exact absurd (List.cons.inj h2).1 h
  · next heq =>
    obtain ⟨h1, h2⟩ := List.cons.inj heq
    rw [h2]
  · next _x c0 rest0 _ _ _ _ h5 heq =>
    exact absurd (List.cons.inj heq).1.symm h5

theorem runDN_other (ber : List Char → Option (List Char)) (st : PState)
    (c : Char) (rest : List Char) (h1 : c ≠ '\\') (h2 : c ≠ '=') :
    runDN ber st (c :: rest) =
      (if c = ',' ∨ c = '+' then
        if st.tOrig.isEmpty then Except.error ()
        else
          match normValue st.tNorm (bufValue st) with
          | none => Except.error ()
          | some nv =>
            if c = ',' then
              runDN ber
                ⟨st.rdns ++ [⟨st.attrs ++ [⟨st.tOrig, st.tNorm, bufValue st, nv⟩]⟩],
                  [], [], [], [], 0⟩ rest
            else
              runDN ber
                ⟨st.rdns, st.attrs ++ [⟨st.tOrig, st.tNorm, bufValue st, nv⟩],
                  [], [], [], 0⟩ rest
      else if c = ' ' ∧ st.buf.isEmpty then runDN ber st rest
      else
        runDN ber
          ⟨st.rdns, st.attrs, st.tOrig, st.tNorm, st.buf ++ [c],
            if c = ' ' then st.trail + 1 else 0⟩ rest) := by
  rw [runDN.eq_def]
  split
  · next heq => exact absurd heq (by simp)
  · next heq => exact absurd (List.cons.inj heq).1 h1
  · next heq => exact absurd (List.cons.inj heq).1 h1
  · next heq => exact absurd (List.cons.inj heq).1 h1
  · next heq => exact absurd (List.cons.inj heq).1 h2
  · next heq => exact absurd (List.cons.inj heq).1 h2
  · next _x c0 rest0 _ _ _ _ _ heq =>
    obtain ⟨hc, hr⟩ := List.cons.inj heq
    rw [← hc, ← hr]

theorem runDN_comma (ber : List Char → Option (List Char)) (st : PState)
    (rest : List Char) :
    runDN ber st (',' :: rest) =
      (if st.tOrig.isEmpty then Except.error ()
      else
        match normValue st.tNorm (bufValue st) with
        | none => Except.error ()
        | some nv =>
          runDN ber
            ⟨st.rdns ++ [⟨st.attrs ++ [⟨st.tOrig, st.tNorm, bufValue st, nv⟩]⟩],
              [], [], [], [], 0⟩ rest) := by
  rw [runDN_other ber st ',' rest (by decide) (by decide), if_pos (Or.inl rfl)]
  split
  · rfl
  · split
    · rfl
    · rw [if_pos rfl]

theorem runDN_plus (ber : List Char → Option (List Char)) (st : PState)
    (rest : List Char) :
    runDN ber st ('+' :: rest) =
      (if st.tOrig.isEmpty then Except.error ()
      else
        match normValue st.tNorm (bufValue st) with
        | none => Except.error ()
        | some nv =>
          runDN ber
            ⟨st.rdns, st.attrs ++ [⟨st.tOrig, st.tNorm, bufValue st, nv⟩],
              [], [], [], 0⟩ rest) := by
  rw [runDN_other ber st '+' rest (by decide) (by decide), if_pos (Or.inr rfl)]
  split
  · rfl
  · split
    · rfl
    · rw [if_neg (by decide)]

theorem runDN_skip_space (ber : List Char → Option (List Char)) (st : PState)
    (rest : List Char) (h : st.buf.isEmpty = true) :
    runDN ber st (' ' :: rest) = runDN ber st rest := by
  rw [runDN_other ber st ' ' rest (by decide) (by decide),
    if_neg (by rintro (hx | hx) <;> exact absurd hx (by decide)), if_pos ⟨rfl, h⟩]

theorem runDN_default (ber : List Char → Option (List Char)) (st : PState)
    (c : Char) (rest : List Char) (h1 : c ≠ '\\') (h2 : c ≠ '=') (h3 : c ≠ ',')
    (h4 : c ≠ '+') (h5 : ¬(c = ' ' ∧ st.buf.isEmpty = true)) :
    runDN ber st (c :: rest) =
      runDN ber
        ⟨st.rdns, st.attrs, st.tOrig, st.tNorm, st.buf ++ [c],
          if c = ' ' then st.trail + 1 else 0⟩ rest := by
  rw [runDN_other ber st c rest h1 h2,
    if_neg (by rintro (hx | hx) <;> [exact h3 hx; exact h4 hx]), if_neg h5]

/-! ### Character-level lemmas for `lowerChar` and the whitespace classes -/

theorem toNat_ofNat_small (n : Nat) (h : n < 55296) : (Char.ofNat n).toNat = n := by
  unfold Char.ofNat
  rw [dif_pos (Or.inl h)]
  rfl

theorem char_eq_iff_toNat (a b : Char) : a = b ↔ a.toNat = b.toNat :=
  Char.ext_iff.trans UInt32.ext_iff

theorem lowerChar_toNat (c : Char) :
    (lowerChar c).toNat = if 65 ≤ c.toNat ∧ c.toNat ≤ 90 then c.toNat + 32 else c.toNat := by
  unfold lowerChar
  split
  · next h => exact toNat_ofNat_small _ (by omega)
  · rfl

theorem lowerChar_eq_self (c : Char) (h : ¬(65 ≤ c.toNat ∧ c.toNat ≤ 90)) :
    lowerChar c = c := by
  unfold lowerChar
  rw [if_neg h]

theorem lowerChar_idem (c : Char) : lowerChar (lowerChar c) = lowerChar c := by
  apply lowerChar_eq_self
  rw [lowerChar_toNat]
  split <;> omega

theorem lowerStr_idem (l : List Char) : lowerStr (lowerStr l) = lowerStr l := by
  unfold lowerStr
  rw [List.map_map]
  exact List.map_congr_left (fun c _ => lowerChar_idem c)

theorem isSpaceGo_toNat (c : Char) :
    isSpaceGo c =
      (decide (c.toNat = 32) || decide (c.toNat = 9) || decide (c.toNat = 10) ||
        decide (c.toNat = 12) || decide (c.toNat = 13)) := by
  unfold isSpaceGo
  simp only [Bool.beq_eq_decide_eq, char_eq_iff_toNat,
    show (' ' : Char).toNat = 32 from rfl, show ('\t' : Char).toNat = 9 from rfl,
    show ('\n' : Char).toNat = 10 from rfl, show ('\x0c' : Char).toNat = 12 from rfl,
    show ('\r' : Char).toNat = 13 from rfl]

theorem isSpaceGo_lowerChar (c : Char) : isSpaceGo (lowerChar c) = isSpaceGo c := by
  rw [isSpaceGo_toNat, isSpaceGo_toNat, lowerChar_toNat]
  split
  · next h =>
    rw [decide_eq_false (by omega), decide_eq_false (by omega), decide_eq_false (by omega),
      decide_eq_false (by omega), decide_eq_false (by omega), decide_eq_false (by omega),
      decide_eq_false (by omega), decide_eq_false (by omega), decide_eq_false (by omega),
      decide_eq_false (by omega)]
  · rfl

theorem isBlankChar_toNat (c : Char) : isBlankChar c = decide (c.toNat = 32) := by
  unfold isBlankChar
  simp only [Bool.beq_eq_decide_eq, char_eq_iff_toNat,
    show (' ' : Char).toNat = 32 from rfl]

theorem isBlankChar_lowerChar (c : Char) : isBlankChar (lowerChar c) = isBlankChar c := by
  rw [isBlankChar_toNat, isBlankChar_toNat, lowerChar_toNat]
  split
  · next h => rw [decide_eq_false (by omega), decide_eq_false (by omega)]
  · rfl

/-! ### `normalizeSpace` is idempotent -/

theorem collapseSpace_cons_nonspace {c : Char} (h : isSpaceGo c = false) (t : List Char) :
    collapseSpace (c :: t) = c :: collapseSpace t := by
  cases t with
  | nil => unfold collapseSpace; rw [if_neg (by simp [h])]
  | cons d t' => conv_lhs => unfold collapseSpace
                 rw [if_neg (by simp [h])]

theorem collapseSpace_cons2_space_space {c d : Char} (hc : isSpaceGo c = true)
    (hd : isSpaceGo d = true) (t : List Char) :
    collapseSpace (c :: d :: t) = collapseSpace (d :: t) := by
  conv_lhs => unfold collapseSpace
  rw [if_pos hc, if_pos hd]

theorem collapseSpace_cons2_space_nonspace {c d : Char} (hc : isSpaceGo c = true)
    (hd : isSpaceGo d = false) (t : List Char) :
    collapseSpace (c :: d :: t) = ' ' :: collapseSpace (d :: t) := by
  conv_lhs => unfold collapseSpace
  rw [if_pos hc, if_neg (by simp [hd])]

theorem collapseSpace_singleton (c : Char) :
    collapseSpace [c] = if isSpaceGo c then [' '] else [c] := by
  unfold collapseSpace
  rfl

theorem collapseSpace_length_le (l : List Char) :
    (collapseSpace l).length ≤ l.length := by
  induction l with
  | nil => simp [collapseSpace]
  | cons c t ih =>
    cases t with
    | nil => rw [collapseSpace_singleton]; split <;> simp
    | cons d t' =>
      by_cases hc : isSpaceGo c
      · by_cases hd : isSpaceGo d
        · rw [collapseSpace_cons2_space_space hc hd]
          exact Nat.le_succ_of_le ih
        · rw [collapseSpace_cons2_space_nonspace hc (by simp [hd])]
          simpa using ih
      · rw [collapseSpace_cons_nonspace (by simp [hc])]
        simpa using ih

theorem collapseSpace_head_space {c : Char} (hc : isSpaceGo c = true) (t : List Char) :
    ∃ z, collapseSpace (c :: t) = ' ' :: z := by
  induction t generalizing c with
  | nil => exact ⟨[], by rw [collapseSpace_singleton, if_pos hc]⟩
  | cons d t' ih =>
    by_cases hd : isSpaceGo d
    · rw [collapseSpace_cons2_space_space hc hd]
      exact ih hd
    · rw [collapseSpace_cons2_space_nonspace hc (by simp [hd])]
      exact ⟨_, rfl⟩

theorem collapseSpace_idem (l : List Char) :
    collapseSpace (collapseSpace l) = collapseSpace l := by
  induction l with
  | nil => simp [collapseSpace]
  | cons c t ih =>
    cases t with
    | nil =>
      rw [collapseSpace_singleton]
      split
      · rw [collapseSpace_singleton]; rfl
      · next h => rw [collapseSpace_singleton, if_neg h]
    | cons d t' =>
      by_cases hc : isSpaceGo c
      · by_cases hd : isSpaceGo d
        · rw [collapseSpace_cons2_space_space hc hd, ih]
        · rw [collapseSpace_cons2_space_nonspace hc (by simp [hd])]
          have h2 : collapseSpace (d :: t') = d :: collapseSpace t' :=
            collapseSpace_cons_nonspace (by simp [hd]) t'
          rw [h2, collapseSpace_cons2_space_nonspace (by decide) (by simp [hd]), ← h2, ih]
      · rw [collapseSpace_cons_nonspace (by simp [hc]),
          collapseSpace_cons_nonspace (by simp [hc]), ih]

theorem dropWhile_head_not (p : Char → Bool) (l : List Char) :
    l.dropWhile p = [] ∨ ∃ c t, l.dropWhile p = c :: t ∧ p c = false := by
  induction l with
  | nil => exact Or.inl rfl
  | cons c t ih =>
    by_cases h : p c
    · rw [List.dropWhile_cons_of_pos h]; exact ih
    · rw [List.dropWhile_cons_of_neg h]
      exact Or.inr ⟨c, t, rfl, by simpa using h⟩

theorem dropWhile_idem (p : Char → Bool) (l : List Char) :
    (l.dropWhile p).dropWhile p = l.dropWhile p := by
  rcases dropWhile_head_not p l with h | ⟨c, t, h, hc⟩
  · rw [h]; rfl
  · rw [h, List.dropWhile_cons_of_neg (by simp [hc])]

theorem dropTrailWhile_nil (p : Char → Bool) : dropTrailWhile p [] = [] := rfl

theorem dropTrailWhile_cons (p : Char → Bool) (c : Char) (t : List Char) :
    dropTrailWhile p (c :: t) =
      if (dropTrailWhile p t).isEmpty && p c then [] else c :: dropTrailWhile p t := rfl

theorem dropTrailWhile_eq_nil_iff (p : Char → Bool) (l : List Char) :
    dropTrailWhile p l = [] ↔ ∀ c ∈ l, p c = true := by
  induction l with
  | nil => simp [dropTrailWhile]
  | cons c t ih =>
    rw [dropTrailWhile_cons]
    constructor
    · intro h
      split at h
      · next hcond =>
        rw [Bool.and_eq_true, List.isEmpty_iff] at hcond
        intro x hx
        rcases List.mem_cons.1 hx with rfl | hx'
        · exact hcond.2
        · exact (ih.1 hcond.1) x hx'
      · exact absurd h (by simp)
    · intro h
      rw [if_pos]
      rw [Bool.and_eq_true, List.isEmpty_iff]
      exact ⟨ih.2 (fun x hx => h x (List.mem_cons_of_mem c hx)), h c (List.mem_cons_self c t)⟩

theorem dropTrailWhile_idem (p : Char → Bool) (l : List Char) :
    dropTrailWhile p (dropTrailWhile p l) = dropTrailWhile p l := by
  induction l with
  | nil => rfl
  | cons c t ih =>
    rw [dropTrailWhile_cons]
    split
    · rfl
    · next hcond =>
      rw [dropTrailWhile_cons, ih, if_neg hcond]

theorem dropWhile_dropTrailWhile_comm (p : Char → Bool) (l : List Char) :
    (dropTrailWhile p l).dropWhile p = dropTrailWhile p (l.dropWhile p) := by
  induction l with
  | nil => rfl
  | cons c t ih =>
    by_cases hc : p c
    · rw [List.dropWhile_cons_of_pos hc, dropTrailWhile_cons]
      split
      · next hcond =>
        rw [Bool.and_eq_true, List.isEmpty_iff] at hcond
        have hall : ∀ x ∈ t, p x = true := (dropTrailWhile_eq_nil_iff p t).1 hcond.1
        have hdw : t.dropWhile p = [] := List.dropWhile_eq_nil_iff.2 (by
          intro x hx; simpa using hall x hx)
        rw [hdw]
        simp [dropTrailWhile]
      · next hcond =>
        have hne : dropTrailWhile p t ≠ [] := by
          intro h0
          apply hcond
          rw [Bool.and_eq_true, List.isEmpty_iff]
          exact ⟨h0, hc⟩
        rcases hx : dropTrailWhile p t with _ | ⟨d, z⟩
        · exact absurd hx hne
        · rw [List.dropWhile_cons_of_pos hc, ← hx, ih]
    · rw [List.dropWhile_cons_of_neg hc, dropTrailWhile_cons]
      rw [if_neg (by simp [hc]), List.dropWhile_cons_of_neg hc]

theorem dropTrailWhile_cons_of_ne {p : Char → Bool} {c : Char} {t : List Char}
    (h : dropTrailWhile p (c :: t) ≠ []) :
    dropTrailWhile p (c :: t) = c :: dropTrailWhile p t := by
  rw [dropTrailWhile_cons]
  rw [dropTrailWhile_cons] at h
  split at h
  · exact absurd rfl h
  · next hcond => rw [if_neg hcond]

theorem space_fix_parts {c : Char} {t : List Char}
    (hfix : collapseSpace (c :: t) = c :: t) (hc : isSpaceGo c = true) :
    c = ' ' ∧ collapseSpace t = t ∧
      (t = [] ∨ ∃ d t', t = d :: t' ∧ isSpaceGo d = false) := by
  cases t with
  | nil =>
    rw [collapseSpace_singleton, if_pos hc] at hfix
    exact ⟨(List.cons.inj hfix).1.symm, rfl, Or.inl rfl⟩
  | cons d t' =>
    by_cases hd : isSpaceGo d
    · exfalso
      rw [collapseSpace_cons2_space_space hc hd] at hfix
      have hlen := collapseSpace_length_le (d :: t')
      rw [hfix] at hlen
      simp at hlen
    · rw [collapseSpace_cons2_space_nonspace hc (by simp [hd])] at hfix
      have h1 := List.cons.inj hfix
      exact ⟨h1.1.symm, h1.2, Or.inr ⟨d, t', rfl, by simp [hd]⟩⟩

theorem nonspace_fix_tail {c : Char} {t : List Char}
    (hfix : collapseSpace (c :: t) = c :: t) (hc : isSpaceGo c = false) :
    collapseSpace t = t := by
  rw [collapseSpace_cons_nonspace hc] at hfix
  exact (List.cons.inj hfix).2

theorem isBlankChar_isSpaceGo {c : Char} (h : isBlankChar c = true) : isSpaceGo c = true := by
  rw [isBlankChar_toNat] at h
  rw [isSpaceGo_toNat]
  simp only [decide_eq_true_eq] at h
  simp [h]

theorem collapseFix_dropWhile {m : List Char} (hfix : collapseSpace m = m) :
    collapseSpace (m.dropWhile isBlankChar) = m.dropWhile isBlankChar := by
  induction m with
  | nil => rfl
  | cons c t ih =>
    by_cases hb : isBlankChar c
    · rw [List.dropWhile_cons_of_pos hb]
      exact ih (space_fix_parts hfix (isBlankChar_isSpaceGo hb)).2.1
    · rwa [List.dropWhile_cons_of_neg hb]

theorem collapseFix_dropTrailWhile {m : List Char} (hfix : collapseSpace m = m) :
    collapseSpace (dropTrailWhile isBlankChar m) = dropTrailWhile isBlankChar m := by
  induction m with
  | nil => rfl
  | cons c t ih =>
    rw [dropTrailWhile_cons]
    split
    · rfl
    · next hcond =>
      by_cases hc : isSpaceGo c
      · obtain ⟨hcsp, hct, hhead⟩ := space_fix_parts hfix hc
        have hblank : isBlankChar c = true := by
          rw [isBlankChar_toNat, hcsp]; decide
        have hne : dropTrailWhile isBlankChar t ≠ [] := by
          intro h0
          exact hcond (by rw [Bool.and_eq_true, List.isEmpty_iff]; exact ⟨h0, hblank⟩)
        rcases hhead with rfl | ⟨d, t', rfl, hd⟩
        · exact absurd rfl hne
        · have hx := dropTrailWhile_cons_of_ne hne
          have hdt := ih hct
          rw [hx] at hdt ⊢
          rw [hcsp, collapseSpace_cons2_space_nonspace (by decide) hd, hdt]
      · have hct := nonspace_fix_tail hfix (by simp [hc])
        rw [collapseSpace_cons_nonspace (by simp [hc]), ih hct]

theorem trimSpace_collapseFix {m : List Char} (hfix : collapseSpace m = m) :
    collapseSpace (trimSpace m) = trimSpace m := by
  unfold trimSpace
  exact collapseFix_dropTrailWhile (collapseFix_dropWhile hfix)

theorem trimSpace_idem (l : List Char) : trimSpace (trimSpace l) = trimSpace l := by
  unfold trimSpace
  rw [dropWhile_dropTrailWhile_comm, dropWhile_idem, dropTrailWhile_idem]

theorem normalizeSpace_idem (l : List Char) :
    normalizeSpace (normalizeSpace l) = normalizeSpace l := by
  unfold normalizeSpace
  rw [trimSpace_collapseFix (collapseSpace_idem l), trimSpace_idem]

/-! ### `normalizeSpace` commutes with lowercasing -/

theorem dropWhile_lowerStr (l : List Char) :
    (lowerStr l).dropWhile isBlankChar = lowerStr (l.dropWhile isBlankChar) := by
  induction l with
  | nil => rfl
  | cons c t ih =>
    show ((lowerChar c :: lowerStr t).dropWhile isBlankChar) = _
    by_cases hb : isBlankChar c
    · rw [List.dropWhile_cons_of_pos (by rw [isBlankChar_lowerChar]; exact hb),
        List.dropWhile_cons_of_pos hb, ih]
    · rw [List.dropWhile_cons_of_neg (by rw [isBlankChar_lowerChar]; exact hb),
        List.dropWhile_cons_of_neg hb]
      rfl

theorem dropTrailWhile_lowerStr (l : List Char) :
    dropTrailWhile isBlankChar (lowerStr l) = lowerStr (dropTrailWhile isBlankChar l) := by
  induction l with
  | nil => rfl
  | cons c t ih =>
    show dropTrailWhile isBlankChar (lowerChar c :: lowerStr t) = _
    rw [dropTrailWhile_cons, dropTrailWhile_cons, ih, isBlankChar_lowerChar]
    rcases hx : dropTrailWhile isBlankChar t with _ | ⟨d, z⟩
    · by_cases hb : isBlankChar c
      · rw [if_pos (by simp [hb, lowerStr]), if_pos (by simp [hb])]
        rfl
      · rw [if_neg (by simp [hb, lowerStr]), if_neg (by simp [hb])]
        rfl
    · rw [if_neg (by simp [lowerStr]), if_neg (by simp)]
      rfl

theorem collapseSpace_lowerStr (l : List Char) :
    collapseSpace (lowerStr l) = lowerStr (collapseSpace l) := by
  induction l with
  | nil => rfl
  | cons c t ih =>
    cases t with
    | nil =>
      show collapseSpace [lowerChar c] = _
      rw [collapseSpace_singleton, collapseSpace_singleton, isSpaceGo_lowerChar]
      split <;> rfl
    | cons d t' =>
      have ih' : collapseSpace (lowerChar d :: lowerStr t') =
          lowerStr (collapseSpace (d :: t')) := ih
      show collapseSpace (lowerChar c :: lowerChar d :: lowerStr t') = _
      by_cases hc : isSpaceGo c
      · by_cases hd : isSpaceGo d
        · rw [collapseSpace_cons2_space_space (by rw [isSpaceGo_lowerChar]; exact hc)
              (by rw [isSpaceGo_lowerChar]; exact hd),
            collapseSpace_cons2_space_space hc hd]
          exact ih
        · rw [Bool.not_eq_true] at hd
          rw [collapseSpace_cons2_space_nonspace (by rw [isSpaceGo_lowerChar]; exact hc)
              (by rw [isSpaceGo_lowerChar]; exact hd),
            collapseSpace_cons2_space_nonspace hc hd, ih']
          rfl
      · rw [Bool.not_eq_true] at hc
        rw [collapseSpace_cons_nonspace (by rw [isSpaceGo_lowerChar]; exact hc),
          collapseSpace_cons_nonspace hc, ih']
        rfl

theorem normalizeSpace_lowerStr (l : List Char) :
    normalizeSpace (lowerStr l) = lowerStr (normalizeSpace l) := by
  unfold normalizeSpace trimSpace
  rw [collapseSpace_lowerStr, dropWhile_lowerStr, dropTrailWhile_lowerStr]

theorem lower_normalizeSpace_idem (l : List Char) :
    lowerStr (normalizeSpace (lowerStr (normalizeSpace l))) =
      lowerStr (normalizeSpace l) := by
  rw [normalizeSpace_lowerStr, lowerStr_idem, normalizeSpace_idem]

theorem removeAllSpace_idem (l : List Char) :
    removeAllSpace (removeAllSpace l) = removeAllSpace l := by
  unfold removeAllSpace
  rw [List.filter_filter]
  exact List.filter_congr (fun c _ => by cases isSpaceGo c <;> rfl)

/-! ### Decimal format/parse round-trip (`strconv.FormatInt`/`ParseInt`) -/

theorem parseDigitsAux_cons (acc : Nat) (c : Char) (cs : List Char) :
    parseDigitsAux acc (c :: cs) =
      match digitVal c with
      | none => none
      | some d => parseDigitsAux (acc * 10 + d) cs := rfl

theorem parseDigitsAux_append (acc : Nat) (l1 l2 : List Char) :
    parseDigitsAux acc (l1 ++ l2) =
      match parseDigitsAux acc l1 with
      | none => none
      | some m => parseDigitsAux m l2 := by
  induction l1 generalizing acc with
  | nil => rfl
  | cons c cs ih =>
    rw [List.cons_append, parseDigitsAux_cons, parseDigitsAux_cons]
    cases digitVal c with
    | none => rfl
    | some d =>
      show parseDigitsAux (acc * 10 + d) (cs ++ l2) =
        match parseDigitsAux (acc * 10 + d) cs with
        | none => none
        | some m => parseDigitsAux m l2
      exact ih (acc * 10 + d)

theorem digitVal_digitChar (d : Nat) (h : d < 10) :
    digitVal (Nat.digitChar d) = some d := by
  interval_cases d <;> rfl

theorem digitChar_toNat (d : Nat) (h : d < 10) :
    48 ≤ (Nat.digitChar d).toNat ∧ (Nat.digitChar d).toNat ≤ 57 := by
  interval_cases d <;> exact ⟨by decide, by decide⟩

theorem natDec_ne_nil (n : Nat) : natDec n ≠ [] := by
  unfold natDec
  split
  · simp
  · simp

theorem natDec_head_digit (n : Nat) :
    ∃ c t, natDec n = c :: t ∧ 48 ≤ c.toNat ∧ c.toNat ≤ 57 := by
  induction n using Nat.strong_induction_on with
  | _ n ih =>
    unfold natDec
    split
    · next h => exact ⟨_, _, rfl, digitChar_toNat n h⟩
    · next h =>
      obtain ⟨c, t, hct, hc⟩ := ih (n / 10) (Nat.div_lt_self (by omega) (by norm_num))
      exact ⟨c, t ++ [Nat.digitChar (n % 10)], by rw [hct]; rfl, hc⟩

theorem parseDigitsAux_natDec (n : Nat) : ∀ acc,
    parseDigitsAux acc (natDec n) = some (acc * 10 ^ (natDec n).length + n) := by
  induction n using Nat.strong_induction_on with
  | _ n ih =>
    intro acc
    unfold natDec
    split
    · next h =>
      show parseDigitsAux acc [Nat.digitChar n] = _
      unfold parseDigitsAux
      rw [digitVal_digitChar n h]
      show some (acc * 10 + n) = _
      norm_num
    · next h =>
      rw [parseDigitsAux_append,
        ih (n / 10) (Nat.div_lt_self (by omega) (by norm_num)) acc]
      show parseDigitsAux _ [Nat.digitChar (n % 10)] = _
      unfold parseDigitsAux
      rw [digitVal_digitChar _ (Nat.mod_lt n (by norm_num))]
      show some ((acc * 10 ^ (natDec (n / 10)).length + n / 10) * 10 + n % 10) = _
      refine congrArg some ?_
      have hlen : (natDec (n / 10) ++ [Nat.digitChar (n % 10)]).length =
          (natDec (n / 10)).length + 1 := by simp
      rw [hlen, pow_succ]
      have hn : 10 * (n / 10) + n % 10 = n := Nat.div_add_mod n 10
      calc (acc * 10 ^ (natDec (n / 10)).length + n / 10) * 10 + n % 10
          = acc * (10 ^ (natDec (n / 10)).length * 10) + (10 * (n / 10) + n % 10) := by
            ring
        _ = acc * (10 ^ (natDec (n / 10)).length * 10) + n := by rw [hn]

theorem parseDigits_natDec (n : Nat) : parseDigits (natDec n) = some n := by
  unfold parseDigits
  rw [if_neg (by rw [List.isEmpty_iff]; exact natDec_ne_nil n), parseDigitsAux_natDec]
  norm_num

theorem parseIntGo_cons (c : Char) (rest : List Char) :
    parseIntGo (c :: rest) =
      (if c = '+' then
        (parseDigits rest).bind (fun n => if n ≤ 2 ^ 63 - 1 then some ((n : Int)) else none)
      else if c = '-' then
        (parseDigits rest).bind (fun n => if n ≤ 2 ^ 63 then some (-(n : Int)) else none)
      else
        (parseDigits (c :: rest)).bind
          (fun n => if n ≤ 2 ^ 63 - 1 then some ((n : Int)) else none)) := rfl

theorem parseIntGo_intDec (i : Int) (h1 : -(2 ^ 63) ≤ i) (h2 : i ≤ 2 ^ 63 - 1) :
    parseIntGo (intDec i) = some i := by
  unfold intDec
  split
  · next hneg =>
    show parseIntGo ('-' :: natDec (-i).toNat) = _
    rw [parseIntGo_cons, if_neg (by decide), if_pos rfl, parseDigits_natDec]
    show (if (-i).toNat ≤ 2 ^ 63 then some (-((-i).toNat : Int)) else none) = _
    rw [if_pos (by omega)]
    refine congrArg some ?_
    rw [Int.toNat_of_nonneg (by omega)]
    omega
  · next hneg =>
    obtain ⟨c, t, hct, hc1, hc2⟩ := natDec_head_digit i.toNat
    rw [hct, parseIntGo_cons]
    rw [if_neg (by rw [char_eq_iff_toNat]; intro hx; rw [show ('+' : Char).toNat = 43 from rfl] at hx; omega),
      if_neg (by rw [char_eq_iff_toNat]; intro hx; rw [show ('-' : Char).toNat = 45 from rfl] at hx; omega),
      ← hct, parseDigits_natDec]
    show (if i.toNat ≤ 2 ^ 63 - 1 then some ((i.toNat : Int)) else none) = _
    rw [if_pos (by omega)]
    refine congrArg some ?_
    rw [Int.toNat_of_nonneg (by omega)]

theorem parseIntGo_bounds (v : List Char) (i : Int) (h : parseIntGo v = some i) :
    -(2 ^ 63) ≤ i ∧ i ≤ 2 ^ 63 - 1 := by
  rcases v with _ | ⟨c, rest⟩
  · exact absurd h (by simp [parseIntGo])
  · rw [parseIntGo_cons] at h
    split at h
    · rcases hp : parseDigits rest with _ | n
      · rw [hp] at h; exact absurd h (by simp)
      · rw [hp] at h
        simp only [Option.some_bind] at h
        split at h
        · next hle =>
          have := Option.some.inj h
          omega
        · exact absurd h (by simp)
    · split at h
      · rcases hp : parseDigits rest with _ | n
        · rw [hp] at h; exact absurd h (by simp)
        · rw [hp] at h
          simp only [Option.some_bind] at h
          split at h
          · next hle =>
            have := Option.some.inj h
            omega
          · exact absurd h (by simp)
      · rcases hp : parseDigits (c :: rest) with _ | n
        · rw [hp] at h; exact absurd h (by simp)
        · rw [hp] at h
          simp only [Option.some_bind] at h
          split at h
          · next hle =>
            have := Option.some.inj h
            omega
          · exact absurd h (by simp)

/-! ### UUID canonical-form round-trip (`uuid.Parse` / `u.String()`) -/

theorem isHexDigitGo_iff (c : Char) :
    isHexDigitGo c = true ↔
      48 ≤ c.toNat ∧ c.toNat ≤ 57 ∨ 97 ≤ c.toNat ∧ c.toNat ≤ 102 ∨
        65 ≤ c.toNat ∧ c.toNat ≤ 70 := by
  unfold isHexDigitGo hexVal
  split
  · next h => exact ⟨fun _ => Or.inl h, fun _ => rfl⟩
  · next h1 =>
    split
    · next h => exact ⟨fun _ => Or.inr (Or.inl h), fun _ => rfl⟩
    · next h2 =>
      split
      · next h => exact ⟨fun _ => Or.inr (Or.inr h), fun _ => rfl⟩
      · next h3 =>
        constructor
        · intro hx; exact absurd hx (by simp)
        · intro hx
          rcases hx with h | h | h
          · exact absurd h h1
          · exact absurd h h2
          · exact absurd h h3

theorem isHexDigitGo_lowerChar (c : Char) :
    isHexDigitGo (lowerChar c) = isHexDigitGo c := by
  rw [Bool.eq_iff_iff, isHexDigitGo_iff, isHexDigitGo_iff, lowerChar_toNat]
  split <;> omega

theorem lowerChar_dash : lowerChar '-' = '-' := by
  unfold lowerChar
  rw [if_neg (by decide)]

theorem hexChunk_append (n : Nat) (m rest : List Char) (hlen : m.length = n)
    (hhex : ∀ c ∈ m, isHexDigitGo c = true) :
    hexChunk n (m ++ rest) = some rest := by
  induction m generalizing n with
  | nil => rw [← hlen]; rfl
  | cons c t ih =>
    rw [← hlen]
    show hexChunk (t.length + 1) (c :: (t ++ rest)) = some rest
    unfold hexChunk
    rw [if_pos (hhex c (List.mem_cons_self c t))]
    exact ih t.length rfl (fun x hx => hhex x (List.mem_cons_of_mem c hx))

theorem hexChunk_sound (n : Nat) (l r : List Char) (h : hexChunk n l = some r) :
    ∃ m, l = m ++ r ∧ m.length = n ∧ ∀ c ∈ m, isHexDigitGo c = true := by
  induction n generalizing l with
  | zero =>
    refine ⟨[], ?_, rfl, by simp⟩
    simpa [hexChunk] using Option.some.inj h
  | succ k ih =>
    rcases l with _ | ⟨c, t⟩
    · exact absurd h (by simp [hexChunk])
    · unfold hexChunk at h
      split at h
      · next hc =>
        obtain ⟨m, hm, hlen, hhex⟩ := ih t h
        refine ⟨c :: m, by rw [hm]; rfl, by simp [hlen], ?_⟩
        intro x hx
        rcases List.mem_cons.1 hx with rfl | hx'
        · exact hc
        · exact hhex x hx'
      · exact absurd h (by simp)

theorem dashChunk_cons (r : List Char) : dashChunk ('-' :: r) = some r := rfl

theorem dashChunk_sound (l r : List Char) (h : dashChunk l = some r) : l = '-' :: r := by
  unfold dashChunk at h
  split at h
  · next r0 => exact congrArg (List.cons '-') (Option.some.inj h)
  · exact absurd h (by simp)

theorem uuid36Ok_build (a b c d e : List Char)
    (ha : a.length = 8) (hb : b.length = 4) (hc : c.length = 4) (hd : d.length = 4)
    (he : e.length = 12)
    (hhex : ∀ x, (x ∈ a ∨ x ∈ b ∨ x ∈ c ∨ x ∈ d ∨ x ∈ e) → isHexDigitGo x = true) :
    uuid36Ok (a ++ '-' :: (b ++ '-' :: (c ++ '-' :: (d ++ '-' :: e)))) = true := by
  unfold uuid36Ok
  rw [hexChunk_append 8 a _ ha (fun x hx => hhex x (Or.inl hx)), Option.some_bind,
    dashChunk_cons, Option.some_bind,
    hexChunk_append 4 b _ hb (fun x hx => hhex x (Or.inr (Or.inl hx))), Option.some_bind,
    dashChunk_cons, Option.some_bind,
    hexChunk_append 4 c _ hc (fun x hx => hhex x (Or.inr (Or.inr (Or.inl hx)))),
    Option.some_bind, dashChunk_cons, Option.some_bind,
    hexChunk_append 4 d _ hd (fun x hx => hhex x (Or.inr (Or.inr (Or.inr (Or.inl hx))))),
    Option.some_bind, dashChunk_cons, Option.some_bind,
    show e = e ++ [] from (List.append_nil e).symm,
    hexChunk_append 12 e [] (by simpa using he)
      (fun x hx => hhex x (Or.inr (Or.inr (Or.inr (Or.inr (by simpa using hx))))))]
  rfl

theorem uuid36Ok_decomp (l : List Char) (h : uuid36Ok l = true) :
    ∃ a b c d e, l = a ++ '-' :: (b ++ '-' :: (c ++ '-' :: (d ++ '-' :: e))) ∧
      a.length = 8 ∧ b.length = 4 ∧ c.length = 4 ∧ d.length = 4 ∧ e.length = 12 ∧
      ∀ x, (x ∈ a ∨ x ∈ b ∨ x ∈ c ∨ x ∈ d ∨ x ∈ e) → isHexDigitGo x = true := by
  unfold uuid36Ok at h
  rw [beq_iff_eq] at h
  rcases h1 : hexChunk 8 l with _ | r1 <;> rw [h1] at h
  · exact absurd h (by simp)
  rw [Option.some_bind] at h
  rcases h2 : dashChunk r1 with _ | r2 <;> rw [h2] at h
  · exact absurd h (by simp)
  rw [Option.some_bind] at h
  rcases h3 : hexChunk 4 r2 with _ | r3 <;> rw [h3] at h
  · exact absurd h (by simp)
  rw [Option.some_bind] at h
  rcases h4 : dashChunk r3 with _ | r4 <;> rw [h4] at h
  · exact absurd h (by simp)
  rw [Option.some_bind] at h
  rcases h5 : hexChunk 4 r4 with _ | r5 <;> rw [h5] at h
  · exact absurd h (by simp)
  rw [Option.some_bind] at h
  rcases h6 : dashChunk r5 with _ | r6 <;> rw [h6] at h
  · exact absurd h (by simp)
  rw [Option.some_bind] at h
  rcases h7 : hexChunk 4 r6 with _ | r7 <;> rw [h7] at h
  · exact absurd h (by simp)
  rw [Option.some_bind] at h
  rcases h8 : dashChunk r7 with _ | r8 <;> rw [h8] at h
  · exact absurd h (by simp)
  rw [Option.some_bind] at h
  obtain ⟨a, hal, haL, haH⟩ := hexChunk_sound 8 l _ h1
  obtain ⟨b, hbl, hbL, hbH⟩ := hexChunk_sound 4 r2 _ h3
  obtain ⟨c, hcl, hcL, hcH⟩ := hexChunk_sound 4 r4 _ h5
  obtain ⟨d, hdl, hdL, hdH⟩ := hexChunk_sound 4 r6 _ h7
  obtain ⟨e, hel, heL, heH⟩ := hexChunk_sound 12 r8 _ h
  rw [List.append_nil] at hel
  refine ⟨a, b, c, d, e, ?_, haL, hbL, hcL, hdL, heL, ?_⟩
  · rw [hal, dashChunk_sound _ _ h2, hbl, dashChunk_sound _ _ h4, hcl,
      dashChunk_sound _ _ h6, hdl, dashChunk_sound _ _ h8, hel]
  · intro x hx
    rcases hx with hx | hx | hx | hx | hx
    · exact haH x hx
    · exact hbH x hx
    · exact hcH x hx
    · exact hdH x hx
    · exact heH x hx

theorem uuid36Ok_lowerStr (l : List Char) (h : uuid36Ok l = true) :
    uuid36Ok (lowerStr l) = true := by
  obtain ⟨a, b, c, d, e, hl, haL, hbL, hcL, hdL, heL, hH⟩ := uuid36Ok_decomp l h
  rw [hl]
  unfold lowerStr
  simp only [List.map_append, List.map_cons, lowerChar_dash]
  refine uuid36Ok_build _ _ _ _ _ (by simp [haL]) (by simp [hbL]) (by simp [hcL])
    (by simp [hdL]) (by simp [heL]) ?_
  intro x hx
  have hex : ∃ y, (y ∈ a ∨ y ∈ b ∨ y ∈ c ∨ y ∈ d ∨ y ∈ e) ∧ x = lowerChar y := by
    rcases hx with hx | hx | hx | hx | hx <;> obtain ⟨y, hy, hxy⟩ := List.mem_map.1 hx
    · exact ⟨y, Or.inl hy, hxy.symm⟩
    · exact ⟨y, Or.inr (Or.inl hy), hxy.symm⟩
    · exact ⟨y, Or.inr (Or.inr (Or.inl hy)), hxy.symm⟩
    · exact ⟨y, Or.inr (Or.inr (Or.inr (Or.inl hy))), hxy.symm⟩
    · exact ⟨y, Or.inr (Or.inr (Or.inr (Or.inr hy))), hxy.symm⟩
  obtain ⟨y, hy, rfl⟩ := hex
  rw [isHexDigitGo_lowerChar]
  exact hH y hy

theorem uuidParse_idem (v u : List Char) (h : uuidParse v = some u) :
    uuidParse u = some u := by
  have main : ∀ w, uuid36Ok w = true → uuidParse (lowerStr w) = some (lowerStr w) := by
    intro w hw
    unfold uuidParse
    rw [if_pos (uuid36Ok_lowerStr w hw), lowerStr_idem]
  unfold uuidParse at h
  split at h
  · next hok =>
    rw [← Option.some.inj h]
    exact main v hok
  · split at h
    · next hcond =>
      rw [← Option.some.inj h]
      exact main _ hcond.2.2
    · split at h
      · next hcond =>
        rw [← Option.some.inj h]
        exact main _ hcond.2.2.2
      · split at h
        · next hcond =>
          rw [← Option.some.inj h]
          refine main _ ?_
          obtain ⟨hlen, hhex⟩ := hcond
          have hhex' : ∀ x ∈ v, isHexDigitGo x = true := by
            intro x hx
            exact List.all_eq_true.1 hhex x hx
          refine uuid36Ok_build _ _ _ _ _ ?_ ?_ ?_ ?_ ?_ ?_
          · rw [List.length_take]; omega
          · rw [List.length_take, List.length_drop]; omega
          · rw [List.length_take, List.length_drop]; omega
          · rw [List.length_take, List.length_drop]; omega
          · rw [List.length_drop]; omega
          · intro x hx
            apply hhex'
            rcases hx with hx | hx | hx | hx | hx
            · exact List.take_subset _ _ hx
            · exact List.drop_subset _ _ (List.take_subset _ _ hx)
            · exact List.drop_subset _ _ (List.take_subset _ _ hx)
            · exact List.drop_subset _ _ (List.take_subset _ _ hx)
            · exact List.drop_subset _ _ hx
        · exact absurd h (by simp)

/-! ### The attribute-value normalization dispatch (`schema/util.go normalize`)

`normalize` switches on the attribute type's `Equality` rule (then on
`Substr`, then copies the value).  Its Go result is an `interface{}`
holding a string, an `int64` or a `*DN`; `toNormStr` converts it back to
the normalized string stored in `SchemaValue.normStr`.  Only the fields
the dispatch consults (`Name`, `Equality`, `Substr`) are modelled. -/

inductive NormVal where
  | str : List Char → NormVal
  | int : Int → NormVal
  | dn : DN → NormVal
deriving DecidableEq, Repr

structure AttributeType where
  Name : List Char
  Equality : List Char
  Substr : List Char
deriving DecidableEq, Repr

/-- `AttributeType.IsNanoFormat`. -/
def AttributeType.IsNanoFormat (s : AttributeType) : Bool :=
  s.Name = "pwdFailureTime".data

/-- `normalizeGeneralizedTime`: `time.Parse(TIMESTAMP_FORMAT, value)`, then
`.UnixNano()` for the nano-format attribute and `.Unix()` otherwise. -/
def normalizeGeneralizedTime (s : AttributeType) (value : List Char) : Option Int :=
  match parseGeneralizedTime value with
  | none => none
  | some t => some (if s.IsNanoFormat then t * 1000000000 else t)

/-- `normalize` (`schema/util.go`), branch for branch in source order; the
DN branches use `NormalizeDN` through the same `ber` oracle as `ParseDN`.
(Named `normalizeGo` because Mathlib already declares `normalize`.) -/
def normalizeGo (ber : List Char → Option (List Char)) (s : AttributeType)
    (value : List Char) : Option NormVal :=
  if s.Equality = "caseExactMatch".data then some (.str (normalizeSpace value))
  else if s.Equality = "caseIgnoreMatch".data then
    some (.str (lowerStr (normalizeSpace value)))
  else if s.Equality = "distinguishedNameMatch".data then
    match NormalizeDN ber value with
    | Except.error _ => none
    | Except.ok d => some (.dn d)
  else if s.Equality = "caseExactIA5Match".data then some (.str (normalizeSpace value))
  else if s.Equality = "caseIgnoreIA5Match".data then
    some (.str (lowerStr (normalizeSpace value)))
  else if s.Equality = "generalizedTimeMatch".data then
    match normalizeGeneralizedTime s value with
    | none => none
    | some t => some (.int t)
  else if s.Equality = "objectIdentifierMatch".data then some (.str (lowerStr value))
  else if s.Equality = "numericStringMatch".data then some (.str (removeAllSpace value))
  else if s.Equality = "integerMatch".data then
    match parseIntGo value with
    | none => none
    | some i => some (.int i)
  else if s.Equality = "booleanMatch".data then
    match normalizeBoolean value with
    | none => none
    | some b => some (.str b)
  else if s.Equality = "UUIDMatch".data then
    match uuidParse value with
    | none => none
    | some u => some (.str u)
  else if s.Equality = "uniqueMemberMatch".data then
    match NormalizeDN ber value with
    | Except.error _ => some (.str (lowerStr (normalizeSpace value)))
    | Except.ok d => some (.dn d)
  else if s.Substr = "caseExactSubstringsMatch".data then
    some (.str (normalizeSpace value))
  else if s.Substr = "caseIgnoreSubstringsMatch".data then
    some (.str (lowerStr (normalizeSpace value)))
  else if s.Substr = "caseExactIA5SubstringsMatch".data then
    some (.str (normalizeSpace value))
  else if s.Substr = "caseIgnoreIA5SubstringsMatch".data then
    some (.str (lowerStr (normalizeSpace value)))
  else some (.str value)

/-- `toNormStr`: string as is, `int64` via `strconv.FormatInt(v, 10)`,
`*DN` via `DNNormStr`. -/
def toNormStr : NormVal → List Char
  | .str v => v
  | .int i => intDec i
  | .dn d => d.DNNormStr

/-! ### Claim C7: idempotence of value normalization -/

/-! branch access lemmas for normalizeGo -/

theorem normalizeGo_caseExact (ber : List Char → Option (List Char))
    (s : AttributeType) (h : s.Equality = "caseExactMatch".data) (w : List Char) :
    normalizeGo ber s w = some (.str (normalizeSpace w)) := by
  unfold normalizeGo
  rw [if_pos h]

theorem normalizeGo_caseIgnore (ber : List Char → Option (List Char))
    (s : AttributeType) (h : s.Equality = "caseIgnoreMatch".data) (w : List Char) :
    normalizeGo ber s w = some (.str (lowerStr (normalizeSpace w))) := by
  unfold normalizeGo
  rw [h, if_neg (by decide), if_pos rfl]

theorem normalizeGo_dn (ber : List Char → Option (List Char))
    (s : AttributeType) (h : s.Equality = "distinguishedNameMatch".data) (w : List Char) :
    normalizeGo ber s w =
      (match NormalizeDN ber w with
      | Except.error _ => none
      | Except.ok d => some (.dn d)) := by
  unfold normalizeGo
  rw [h, if_neg (by decide), if_neg (by decide), if_pos rfl]

theorem normalizeGo_caseExactIA5 (ber : List Char → Option (List Char))
    (s : AttributeType) (h : s.Equality = "caseExactIA5Match".data) (w : List Char) :
    normalizeGo ber s w = some (.str (normalizeSpace w)) := by
  unfold normalizeGo
  rw [h, if_neg (by decide), if_neg (by decide), if_neg (by decide), if_pos rfl]

theorem normalizeGo_caseIgnoreIA5 (ber : List Char → Option (List Char))
    (s : AttributeType) (h : s.Equality = "caseIgnoreIA5Match".data) (w : List Char) :
    normalizeGo ber s w = some (.str (lowerStr (normalizeSpace w))) := by
  unfold normalizeGo
  rw [h, if_neg (by decide), if_neg (by decide), if_neg (by decide), if_neg (by decide),
    if_pos rfl]

theorem normalizeGo_genTime (ber : List Char → Option (List Char))
    (s : AttributeType) (h : s.Equality = "generalizedTimeMatch".data) (w : List Char) :
    normalizeGo ber s w =
      (match normalizeGeneralizedTime s w with
      | none => none
      | some t => some (.int t)) := by
  unfold normalizeGo
  rw [h, if_neg (by decide), if_neg (by decide), if_neg (by decide), if_neg (by decide),
    if_neg (by decide), if_pos rfl]

theorem normalizeGo_oid (ber : List Char → Option (List Char))
    (s : AttributeType) (h : s.Equality = "objectIdentifierMatch".data) (w : List Char) :
    normalizeGo ber s w = some (.str (lowerStr w)) := by
  unfold normalizeGo
  rw [h, if_neg (by decide), if_neg (by decide), if_neg (by decide), if_neg (by decide),
    if_neg (by decide), if_neg (by decide), if_pos rfl]

theorem normalizeGo_numeric (ber : List Char → Option (List Char))
    (s : AttributeType) (h : s.Equality = "numericStringMatch".data) (w : List Char) :
    normalizeGo ber s w = some (.str (removeAllSpace w)) := by
  unfold normalizeGo
  rw [h, if_neg (by decide), if_neg (by decide), if_neg (by decide), if_neg (by decide),
    if_neg (by decide), if_neg (by decide), if_neg (by decide), if_pos rfl]

theorem normalizeGo_integer (ber : List Char → Option (List Char))
    (s : AttributeType) (h : s.Equality = "integerMatch".data) (w : List Char) :
    normalizeGo ber s w =
      (match parseIntGo w with
      | none => none
      | some i => some (.int i)) := by
  unfold normalizeGo
  rw [h, if_neg (by decide), if_neg (by decide), if_neg (by decide), if_neg (by decide),
    if_neg (by decide), if_neg (by decide), if_neg (by decide), if_neg (by decide),
    if_pos rfl]

theorem normalizeGo_boolean (ber : List Char → Option (List Char))
    (s : AttributeType) (h : s.Equality = "booleanMatch".data) (w : List Char) :
    normalizeGo ber s w =
      (match normalizeBoolean w with
      | none => none
      | some b => some (.str b)) := by
  unfold normalizeGo
  rw [h, if_neg (by decide), if_neg (by decide), if_neg (by decide), if_neg (by decide),
    if_neg (by decide), if_neg (by decide), if_neg (by decide), if_neg (by decide),
    if_neg (by decide), if_pos rfl]

theorem normalizeGo_uuid (ber : List Char → Option (List Char))
    (s : AttributeType) (h : s.Equality = "UUIDMatch".data) (w : List Char) :
    normalizeGo ber s w =
      (match uuidParse w with
      | none => none
      | some u => some (.str u)) := by
  unfold normalizeGo
  rw [h, if_neg (by decide), if_neg (by decide), if_neg (by decide), if_neg (by decide),
    if_neg (by decide), if_neg (by decide), if_neg (by decide), if_neg (by decide),
    if_neg (by decide), if_neg (by decide), if_pos rfl]


/-- C7 counterexample: normalization is not idempotent for
`generalizedTimeMatch` (the normalized form is the epoch-seconds decimal
string, which `time.Parse` with layout `20060102150405Z` rejects) nor for
`distinguishedNameMatch` (`DNNormStr` does not re-escape separators, so
the normalized form of `cn=a\,b` no longer parses). -/
theorem C7_counterexample :
    normalizeGo (fun _ => none) ⟨"createTimestamp".data, "generalizedTimeMatch".data, []⟩
        "20060102150405Z".data = some (NormVal.int 1136214245) ∧
    toNormStr (NormVal.int 1136214245) = "1136214245".data ∧
    normalizeGo (fun _ => none) ⟨"createTimestamp".data, "generalizedTimeMatch".data, []⟩
        "1136214245".data = none ∧
    normalizeGo (fun _ => none) ⟨"member".data, "distinguishedNameMatch".data, []⟩
        "cn=a\\,b".data =
      some (NormVal.dn ⟨[⟨[⟨"cn".data, "cn".data, "a,b".data, "a,b".data⟩]⟩]⟩) ∧
    toNormStr (NormVal.dn ⟨[⟨[⟨"cn".data, "cn".data, "a,b".data, "a,b".data⟩]⟩]⟩) =
      "cn=a,b".data ∧
    normalizeGo (fun _ => none) ⟨"member".data, "distinguishedNameMatch".data, []⟩
        "cn=a,b".data = none := by
  refine ⟨?_, ?_, ?_, ?_, ?_, ?_⟩
  · rw [normalizeGo_genTime _ _ rfl]
    rfl
  · show intDec 1136214245 = _
    unfold intDec
    rw [if_neg (by decide)]
    show natDec 1136214245 = _
    simp [natDec]
    decide
  · rw [normalizeGo_genTime _ _ rfl]
    rfl
  · rw [normalizeGo_dn _ _ rfl]
    have hp : NormalizeDN (fun _ => none) "cn=a\\,b".data =
        Except.ok (⟨[⟨[⟨"cn".data, "cn".data, "a,b".data, "a,b".data⟩]⟩]⟩ : DN) := by
      unfold NormalizeDN
      rw [if_neg (by decide)]
      show runDN _ initPState ['c', 'n', '=', 'a', '\\', ',', 'b'] = _
      rw [runDN_default _ _ _ _ (by decide) (by decide) (by decide) (by decide) (by decide),
        runDN_default _ _ _ _ (by decide) (by decide) (by decide) (by decide) (by decide),
        runDN_eq_cons _ _ _ _ (by decide),
        runDN_default _ _ _ _ (by decide) (by decide) (by decide) (by decide) (by decide),
        runDN_esc_special _ _ _ _ _ (by decide),
        runDN_default _ _ _ _ (by decide) (by decide) (by decide) (by decide) (by decide),
        runDN_nil]
      rfl
    rw [hp]
  · rfl
  · rw [normalizeGo_dn _ _ rfl]
    have hp : NormalizeDN (fun _ => none) "cn=a,b".data = Except.error () := by
      unfold NormalizeDN
      rw [if_neg (by decide)]
      show runDN _ initPState ['c', 'n', '=', 'a', ',', 'b'] = _
      rw [runDN_default _ _ _ _ (by decide) (by decide) (by decide) (by decide) (by decide),
        runDN_default _ _ _ _ (by decide) (by decide) (by decide) (by decide) (by decide),
        runDN_eq_cons _ _ _ _ (by decide),
        runDN_default _ _ _ _ (by decide) (by decide) (by decide) (by decide) (by decide),
        runDN_comma]
      show runDN _ _ ['b'] = _
      rw [runDN_default _ _ _ _ (by decide) (by decide) (by decide) (by decide) (by decide),
        runDN_nil]
      rfl
    rw [hp]

/-- C7 (amended): for the string-valued equality rules (`caseExactMatch`,
`caseIgnoreMatch`, `caseExactIA5Match`, `caseIgnoreIA5Match`,
`objectIdentifierMatch`, `numericStringMatch`) and for `integerMatch`,
`booleanMatch` and `UUIDMatch`, normalization is idempotent: whenever
`normalize` accepts `v` with result `n`, normalizing the normalized string
`toNormStr n` again yields exactly `n`.  (The claim's remaining two rules,
`generalizedTimeMatch` and `distinguishedNameMatch`, are the
counterexample.) -/
theorem C7_amended (ber : List Char → Option (List Char)) (s : AttributeType)
    (v : List Char) (n : NormVal)
    (hrule : s.Equality ∈ ["caseExactMatch".data, "caseIgnoreMatch".data,
      "caseExactIA5Match".data, "caseIgnoreIA5Match".data, "objectIdentifierMatch".data,
      "numericStringMatch".data, "integerMatch".data, "booleanMatch".data,
      "UUIDMatch".data])
    (hacc : normalizeGo ber s v = some n) :
    normalizeGo ber s (toNormStr n) = some n := by
  simp only [List.mem_cons, List.not_mem_nil, or_false] at hrule
  rcases hrule with h | h | h | h | h | h | h | h | h
  · rw [normalizeGo_caseExact ber s h] at hacc
    obtain rfl : n = NormVal.str (normalizeSpace v) := (Option.some.inj hacc).symm
    rw [normalizeGo_caseExact ber s h]
    show some (NormVal.str (normalizeSpace (normalizeSpace v))) = _
    rw [normalizeSpace_idem]
  · rw [normalizeGo_caseIgnore ber s h] at hacc
    obtain rfl : n = NormVal.str (lowerStr (normalizeSpace v)) := (Option.some.inj hacc).symm
    rw [normalizeGo_caseIgnore ber s h]
    show some (NormVal.str (lowerStr (normalizeSpace (lowerStr (normalizeSpace v))))) = _
    rw [lower_normalizeSpace_idem]
  · rw [normalizeGo_caseExactIA5 ber s h] at hacc
    obtain rfl : n = NormVal.str (normalizeSpace v) := (Option.some.inj hacc).symm
    rw [normalizeGo_caseExactIA5 ber s h]
    show some (NormVal.str (normalizeSpace (normalizeSpace v))) = _
    rw [normalizeSpace_idem]
  · rw [normalizeGo_caseIgnoreIA5 ber s h] at hacc
    obtain rfl : n = NormVal.str (lowerStr (normalizeSpace v)) := (Option.some.inj hacc).symm
    rw [normalizeGo_caseIgnoreIA5 ber s h]
    show some (NormVal.str (lowerStr (normalizeSpace (lowerStr (normalizeSpace v))))) = _
    rw [lower_normalizeSpace_idem]
  · rw [normalizeGo_oid ber s h] at hacc
    obtain rfl : n = NormVal.str (lowerStr v) := (Option.some.inj hacc).symm
    rw [normalizeGo_oid ber s h]
    show some (NormVal.str (lowerStr (lowerStr v))) = _
    rw [lowerStr_idem]
  · rw [normalizeGo_numeric ber s h] at hacc
    obtain rfl : n = NormVal.str (removeAllSpace v) := (Option.some.inj hacc).symm
    rw [normalizeGo_numeric ber s h]
    show some (NormVal.str (removeAllSpace (removeAllSpace v))) = _
    rw [removeAllSpace_idem]
  · rw [normalizeGo_integer ber s h] at hacc
    rcases hi : parseIntGo v with _ | i <;> rw [hi] at hacc
    · exact absurd hacc (by simp)
    · obtain rfl : n = NormVal.int i := (Option.some.inj hacc).symm
      rw [normalizeGo_integer ber s h]
      obtain ⟨hb1, hb2⟩ := parseIntGo_bounds v i hi
      show (match parseIntGo (intDec i) with
        | none => none
        | some j => some (NormVal.int j)) = _
      rw [parseIntGo_intDec i hb1 hb2]
  · rw [normalizeGo_boolean ber s h] at hacc
    rcases hb : normalizeBoolean v with _ | b <;> rw [hb] at hacc
    · exact absurd hacc (by simp)
    · obtain rfl : n = NormVal.str b := (Option.some.inj hacc).symm
      have hbv : b = v := by
        unfold normalizeBoolean at hb
        split at hb
        · exact (Option.some.inj hb).symm
        · exact absurd hb (by simp)
      subst hbv
      rw [normalizeGo_boolean ber s h]
      show (match normalizeBoolean b with
        | none => none
        | some x => some (NormVal.str x)) = _
      rw [hb]
  · rw [normalizeGo_uuid ber s h] at hacc
    rcases hu : uuidParse v with _ | u <;> rw [hu] at hacc
    · exact absurd hacc (by simp)
    · obtain rfl : n = NormVal.str u := (Option.some.inj hacc).symm
      rw [normalizeGo_uuid ber s h]
      show (match uuidParse u with
        | none => none
        | some x => some (NormVal.str x)) = _
      rw [uuidParse_idem v u hu]

/-- C7 witness: the amended theorem applied at the `booleanMatch` rule and
the value `TRUE`. -/
theorem C7_amended_witness :
    normalizeGo (fun _ => none) ⟨"pwdReset".data, "booleanMatch".data, []⟩
      (toNormStr (NormVal.str "TRUE".data)) = some (NormVal.str "TRUE".data) :=
  C7_amended (fun _ => none) ⟨"pwdReset".data, "booleanMatch".data, []⟩ "TRUE".data
    (NormVal.str "TRUE".data) (by decide) (by rfl)

/-! ### Claim C8: the `ParseDN` / `DNOrigStr` round trip

`ATVWF`/`RDNWF`/`DNWF` state the shape invariants of every DN the parser
produces; `runDN_wf` proves them, and the consume lemmas below replay the
serialized string through the parser. -/

def ATVWF (a : ATV) : Prop :=
  a.TypeOrig ≠ [] ∧ a.TypeNorm = lowerStr a.TypeOrig ∧ a.TypeNorm ∈ knownAttrs ∧
    a.ValueNorm = lowerStr (normalizeSpace a.ValueOrig)

def RDNWF (r : RelativeDN) : Prop := r.Attributes ≠ [] ∧ ∀ a ∈ r.Attributes, ATVWF a

def DNWF (d : DN) : Prop := ∀ r ∈ d.RDNs, RDNWF r

def stINV (st : PState) : Prop :=
  (∀ r ∈ st.rdns, RDNWF r) ∧ (∀ a ∈ st.attrs, ATVWF a) ∧ st.tNorm = lowerStr st.tOrig

theorem normValue_some {tN v nv : List Char} (h : normValue tN v = some nv) :
    tN ∈ knownAttrs ∧ nv = lowerStr (normalizeSpace v) := by
  unfold normValue at h
  split at h
  · next hmem => exact ⟨hmem, (Option.some.inj h).symm⟩
  · exact absurd h (by simp)

theorem finishDN_wf {st : PState} {d : DN} (hinv : stINV st)
    (h : finishDN st = Except.ok d) : DNWF d := by
  unfold finishDN at h
  split at h
  · rw [← Except.ok.inj h]
    exact hinv.1
  · split at h
    · exact absurd h (by simp)
    · next hto =>
      split at h
      · exact absurd h (by simp)
      · next nv hnv =>
        obtain ⟨hmem, hnveq⟩ := normValue_some hnv
        rw [← Except.ok.inj h]
        intro r hr
        rcases List.mem_append.1 hr with hr | hr
        · exact hinv.1 r hr
        · rw [List.mem_singleton.1 hr]
          refine ⟨by simp, ?_⟩
          intro a ha
          rcases List.mem_append.1 ha with ha | ha
          · exact hinv.2.1 a ha
          · rw [List.mem_singleton.1 ha]
            exact ⟨by simpa using hto, hinv.2.2, hmem, hnveq⟩

theorem runDN_eq_ber (ber : List Char → Option (List Char)) (st : PState)
    (rest1 : List Char) :
    runDN ber st ('=' :: '#' :: rest1) =
      (match
        hexDecodeList
          (if 0 < (rest1.takeWhile (fun x => decide (x ≠ ',' ∧ x ≠ '+'))).length ∧
              (rest1.takeWhile (fun x => decide (x ≠ ',' ∧ x ≠ '+'))).length < rest1.length
          then rest1.takeWhile (fun x => decide (x ≠ ',' ∧ x ≠ '+'))
          else rest1) with
      | none => Except.error ()
      | some bytes =>
        match ber bytes with
        | none => Except.error ()
        | some content =>
          runDN ber ⟨st.rdns, st.attrs, bufValue st, lowerStr (bufValue st), content, 0⟩
            (rest1.drop
              (if 0 < (rest1.takeWhile (fun x => decide (x ≠ ',' ∧ x ≠ '+'))).length ∧
                  (rest1.takeWhile (fun x => decide (x ≠ ',' ∧ x ≠ '+'))).length <
                    rest1.length
              then rest1.takeWhile (fun x => decide (x ≠ ',' ∧ x ≠ '+'))
              else rest1).length)) := by
  rw [runDN.eq_def]
  rfl

theorem runDN_wf (ber : List Char → Option (List Char)) (st : PState) (l : List Char) :
    stINV st → ∀ d, runDN ber st l = Except.ok d → DNWF d := by
  induction st, l using runDN.induct ber with
  | case1 st =>
    intro hinv d h
    rw [runDN_nil] at h
    exact finishDN_wf hinv h
  | case2 st =>
    intro hinv d h
    rw [runDN_esc_end] at h
    exact finishDN_wf hinv h
  | case3 st c1 hc1 ih =>
    intro hinv d h
    rw [runDN_esc_special1 ber st c1 hc1] at h
    exact ih ⟨hinv.1, hinv.2.1, hinv.2.2⟩ d h
  | case4 st c1 hc1 =>
    intro hinv d h
    rw [runDN.eq_def] at h
    simp only [if_neg hc1] at h
    exact absurd h (by simp)
  | case5 st c1 c2 rest2 hc1 ih =>
    intro hinv d h
    rw [runDN_esc_special ber st c1 c2 rest2 hc1] at h
    exact ih ⟨hinv.1, hinv.2.1, hinv.2.2⟩ d h
  | case6 st c1 c2 rest2 hc1 hhp =>
    intro hinv d h
    rw [runDN_esc_hex ber st c1 c2 rest2 hc1, hhp] at h
    exact absurd h (by simp)
  | case7 st c1 c2 rest2 hc1 ch hhp ih =>
    intro hinv d h
    rw [runDN_esc_hex ber st c1 c2 rest2 hc1, hhp] at h
    exact ih ⟨hinv.1, hinv.2.1, hinv.2.2⟩ d h
  | case8 st rest1 pre data hdec =>
    intro hinv d h
    rw [runDN_eq_ber] at h
    have hd2 : hexDecodeList
        (if 0 < (rest1.takeWhile (fun x => decide (x ≠ ',' ∧ x ≠ '+'))).length ∧
            (rest1.takeWhile (fun x => decide (x ≠ ',' ∧ x ≠ '+'))).length < rest1.length
        then rest1.takeWhile (fun x => decide (x ≠ ',' ∧ x ≠ '+'))
        else rest1) = none := hdec
    rw [hd2] at h
    exact absurd h (by simp)
  | case9 st rest1 pre data bytes hdec hber =>
    intro hinv d h
    rw [runDN_eq_ber] at h
    have hd2 : hexDecodeList
        (if 0 < (rest1.takeWhile (fun x => decide (x ≠ ',' ∧ x ≠ '+'))).length ∧
            (rest1.takeWhile (fun x => decide (x ≠ ',' ∧ x ≠ '+'))).length < rest1.length
        then rest1.takeWhile (fun x => decide (x ≠ ',' ∧ x ≠ '+'))
        else rest1) = some bytes := hdec
    rw [hd2] at h
    simp only [] at h
    rw [hber] at h
    exact absurd h (by simp)
  | case10 st rest1 t pre data bytes hdec content hber ih =>
    intro hinv d h
    rw [runDN_eq_ber] at h
    have hd2 : hexDecodeList
        (if 0 < (rest1.takeWhile (fun x => decide (x ≠ ',' ∧ x ≠ '+'))).length ∧
            (rest1.takeWhile (fun x => decide (x ≠ ',' ∧ x ≠ '+'))).length < rest1.length
        then rest1.takeWhile (fun x => decide (x ≠ ',' ∧ x ≠ '+'))
        else rest1) = some bytes := hdec
    rw [hd2] at h
    simp only [] at h
    rw [hber] at h
    exact ih ⟨hinv.1, hinv.2.1, rfl⟩ d h
  | case11 st other hnp ih =>
    intro hinv d h
    rcases other with _ | ⟨c0, r0⟩
    · rw [runDN_eq_nil] at h
      exact ih ⟨hinv.1, hinv.2.1, rfl⟩ d h
    · have hc0 : c0 ≠ '#' := by
        intro hx
        exact hnp r0 (by rw [hx])
      rw [runDN_eq_cons ber st c0 r0 hc0] at h
      exact ih ⟨hinv.1, hinv.2.1, rfl⟩ d h
  | case12 st c r hb1 hb2 hb3 hb4 hb5 hsep hto =>
    intro hinv d h
    have hc1 : c ≠ '\\' := by
      rintro rfl
      rcases r with _ | ⟨a, _ | ⟨b, t⟩⟩
      · exact hb1 rfl rfl
      · exact hb2 a rfl rfl
      · exact hb3 a b t rfl rfl
    have hc2 : c ≠ '=' := fun hx => hb5 hx
    rw [runDN_other ber st c r hc1 hc2, if_pos hsep, if_pos hto] at h
    exact absurd h (by simp)
  | case13 st c r hb1 hb2 hb3 hb4 hb5 hsep hto hnv =>
    intro hinv d h
    have hc1 : c ≠ '\\' := by
      rintro rfl
      rcases r with _ | ⟨a, _ | ⟨b, t⟩⟩
      · exact hb1 rfl rfl
      · exact hb2 a rfl rfl
      · exact hb3 a b t rfl rfl
    rw [runDN_other ber st c r hc1 (fun hx => hb5 hx), if_pos hsep, if_neg hto, hnv] at h
    exact absurd h (by simp)
  | case14 st rest hto nv hnv attr d1 d2 d3 d4 d5 hsep ih =>
    intro hinv d h
    rw [runDN_comma, if_neg hto, hnv] at h
    refine ih ⟨?_, by simp, rfl⟩ d h
    intro r0 hr0
    rcases List.mem_append.1 hr0 with hr0 | hr0
    · exact hinv.1 r0 hr0
    · rw [List.mem_singleton.1 hr0]
      refine ⟨by simp, ?_⟩
      intro a ha
      rcases List.mem_append.1 ha with ha | ha
      · exact hinv.2.1 a ha
      · rw [List.mem_singleton.1 ha]
        obtain ⟨hmem, hnveq⟩ := normValue_some hnv
        exact ⟨by simpa using hto, hinv.2.2, hmem, hnveq⟩
  | case15 st c rest d1 d2 d3 d4 d5 hsep hto nv hnv attr hcne ih =>
    intro hinv d h
    rcases hsep with rfl | rfl
    · exact absurd rfl hcne
    · rw [runDN_plus, if_neg hto, hnv] at h
      refine ih ⟨hinv.1, ?_, rfl⟩ d h
      intro a ha
      rcases List.mem_append.1 ha with ha | ha
      · exact hinv.2.1 a ha
      · rw [List.mem_singleton.1 ha]
        obtain ⟨hmem, hnveq⟩ := normValue_some hnv
        exact ⟨by simpa using hto, hinv.2.2, hmem, hnveq⟩
  | case16 st c rest d1 d2 d3 d4 d5 hsep hskip ih =>
    intro hinv d h
    obtain ⟨rfl, hbe⟩ := hskip
    rw [runDN_skip_space ber st rest hbe] at h
    exact ih hinv d h
  | case17 st c rest d1 d2 d3 d4 d5 hsep hskip ih =>
    intro hinv d h
    have hc1 : c ≠ '\\' := by
      rintro rfl
      rcases rest with _ | ⟨a, _ | ⟨b, t⟩⟩
      · exact d1 rfl rfl
      · exact d2 a rfl rfl
      · exact d3 a b t rfl rfl
    rw [runDN_other ber st c rest hc1 (fun hx => d5 hx), if_neg hsep, if_neg hskip] at h
    exact ih hinv d h

/-! Stage 2: consume lemmas -/

theorem encChar_cases (first lastc : Bool) (c : Char) :
    (encChar first lastc c = [c] ∧ c ≠ '\\' ∧ c ≠ '=' ∧ c ≠ ',' ∧ c ≠ '+' ∧
      (c = ' ' → first = false ∧ lastc = false) ∧ (c = '#' → first = false)) ∨
    (∃ h1 h2, encChar first lastc c = ['\\', h1, h2] ∧ ¬(h1 ∈ escSpecials) ∧
      hexPair h1 h2 = some c) := by
  by_cases hsp : c = ' '
  · subst hsp
    cases first <;> cases lastc
    · exact Or.inl ⟨by decide, by decide, by decide, by decide, by decide,
        fun _ => ⟨rfl, rfl⟩, by decide⟩
    · exact Or.inr ⟨'2', '0', by decide, by decide, by decide⟩
    · exact Or.inr ⟨'2', '0', by decide, by decide, by decide⟩
    · exact Or.inr ⟨'2', '0', by decide, by decide, by decide⟩
  by_cases hq : c = '"'
  · subst hq
    cases first <;> cases lastc <;>
      exact Or.inr ⟨'2', '2', by decide, by decide, by decide⟩
  by_cases hh : c = '#'
  · subst hh
    cases first <;> cases lastc
    · exact Or.inl ⟨by decide, by decide, by decide, by decide, by decide, by decide,
        fun _ => rfl⟩
    · exact Or.inl ⟨by decide, by decide, by decide, by decide, by decide, by decide,
        fun _ => rfl⟩
    · exact Or.inr ⟨'2', '3', by decide, by decide, by decide⟩
    · exact Or.inr ⟨'2', '3', by decide, by decide, by decide⟩
  by_cases hp : c = '+'
  · subst hp
    cases first <;> cases lastc <;>
      exact Or.inr ⟨'2', 'B', by decide, by decide, by decide⟩
  by_cases hcm : c = ','
  · subst hcm
    cases first <;> cases lastc <;>
      exact Or.inr ⟨'2', 'C', by decide, by decide, by decide⟩
  by_cases hsc : c = ';'
  · subst hsc
    cases first <;> cases lastc <;>
      exact Or.inr ⟨'3', 'B', by decide, by decide, by decide⟩
  by_cases hlt : c = '<'
  · subst hlt
    cases first <;> cases lastc <;>
      exact Or.inr ⟨'3', 'C', by decide, by decide, by decide⟩
  by_cases heq : c = '='
  · subst heq
    cases first <;> cases lastc <;>
      exact Or.inr ⟨'3', 'D', by decide, by decide, by decide⟩
  by_cases hgt : c = '>'
  · subst hgt
    cases first <;> cases lastc <;>
      exact Or.inr ⟨'3', 'E', by decide, by decide, by decide⟩
  by_cases hbs : c = '\\'
  · subst hbs
    cases first <;> cases lastc <;>
      exact Or.inr ⟨'5', 'C', by decide, by decide, by decide⟩
  refine Or.inl ⟨?_, hbs, heq, hcm, hp, fun hx => absurd hx hsp, fun hx => absurd hx hh⟩
  have hsp' : (c == ' ') = false := by simpa using hsp
  have hq' : (c == '"') = false := by simpa using hq
  have hh' : (c == '#') = false := by simpa using hh
  have hp' : (c == '+') = false := by simpa using hp
  have hcm' : (c == ',') = false := by simpa using hcm
  have hsc' : (c == ';') = false := by simpa using hsc
  have hlt' : (c == '<') = false := by simpa using hlt
  have heq' : (c == '=') = false := by simpa using heq
  have hgt' : (c == '>') = false := by simpa using hgt
  have hbs' : (c == '\\') = false := by simpa using hbs
  unfold encChar
  rw [if_neg (by simp [hsp']), if_neg (by simp [hsp']), if_neg (by simp [hq']),
    if_neg (by simp [hh']), if_neg (by simp [hp']), if_neg (by simp [hcm']),
    if_neg (by simp [hsc']), if_neg (by simp [hlt']), if_neg (by simp [heq']),
    if_neg (by simp [hgt']), if_neg (by simp [hbs'])]

theorem encGo_cons (first : Bool) (c : Char) (cs : List Char) :
    encGo first (c :: cs) = encChar first cs.isEmpty c ++ encGo false cs := rfl

theorem encodeDN_head (v : List Char) (hv : v ≠ []) :
    ∃ c0 t0, encodeDN v = c0 :: t0 ∧ c0 ≠ '#' := by
  rcases v with _ | ⟨c, cs⟩
  · exact absurd rfl hv
  · show ∃ c0 t0, encGo true (c :: cs) = c0 :: t0 ∧ c0 ≠ '#'
    rw [encGo_cons]
    rcases encChar_cases true cs.isEmpty c with ⟨henc, _, _, _, _, _, hsharp⟩ |
      ⟨h1, h2, henc, _, _⟩
    · refine ⟨c, encGo false cs, by rw [henc]; rfl, ?_⟩
      intro hx
      exact absurd (hsharp hx) (by simp)
    · exact ⟨'\\', h1 :: h2 :: encGo false cs, by rw [henc]; rfl, by decide⟩

theorem encGo_consume (ber : List Char → Option (List Char))
    (R : List RelativeDN) (A : List ATV) (T LT : List Char) :
    ∀ (v b : List Char) (tr : Nat) (k : List Char), v ≠ [] →
    runDN ber ⟨R, A, T, LT, b, tr⟩ (encGo b.isEmpty v ++ k) =
      runDN ber ⟨R, A, T, LT, b ++ v, 0⟩ k := by
  intro v
  induction v with
  | nil => intro b tr k hv; exact absurd rfl hv
  | cons c v' ih =>
    intro b tr k hv
    rw [encGo_cons]
    rcases encChar_cases b.isEmpty v'.isEmpty c with
      ⟨henc, hbs, heq, hcm, hpl, hsp, hsharp⟩ | ⟨h1, h2, henc, hns, hhp⟩
    · rw [henc]
      show runDN ber ⟨R, A, T, LT, b, tr⟩ (c :: (encGo false v' ++ k)) = _
      have hnskip : ¬(c = ' ' ∧ (⟨R, A, T, LT, b, tr⟩ : PState).buf.isEmpty = true) := by
        rintro ⟨rfl, hbe⟩
        have := (hsp rfl).1
        simp only [List.isEmpty_iff] at hbe
        rw [hbe] at this
        exact absurd this (by simp)
      rw [runDN_default ber _ c _ hbs heq hcm hpl hnskip]
      rcases hv' : v' with _ | ⟨c2, v''⟩
      · have hcsp : c ≠ ' ' := by
          intro hx
          have := (hsp hx).2
          rw [hv'] at this
          exact absurd this (by simp)
        show runDN ber ⟨R, A, T, LT, b ++ [c], if c = ' ' then tr + 1 else 0⟩ ([] ++ k) = _
        rw [if_neg hcsp, List.nil_append]
      · rw [← hv']
        have hb' : (b ++ [c]).isEmpty = false := by simp
        have := ih (b ++ [c]) (if c = ' ' then tr + 1 else 0) k (by rw [hv']; simp)
        rw [hb'] at this
        rw [this, List.append_assoc]
        rfl
    · rw [henc]
      show runDN ber ⟨R, A, T, LT, b, tr⟩ ('\\' :: h1 :: h2 :: (encGo false v' ++ k)) = _
      rcases hv' : v' with _ | ⟨c2, v''⟩
      · show runDN ber ⟨R, A, T, LT, b, tr⟩ ('\\' :: h1 :: h2 :: k) = _
        rcases k with _ | ⟨k0, k'⟩
        · rw [runDN_esc_hex ber _ h1 h2 [] hns, hhp]
        · rw [runDN_esc_hex ber _ h1 h2 (k0 :: k') hns, hhp]
      · rw [← hv']
        rw [runDN_esc_hex ber _ h1 h2 (encGo false v' ++ k) hns, hhp]
        have hb' : (b ++ [c]).isEmpty = false := by simp
        have hih := ih (b ++ [c]) 0 k (by rw [hv']; simp)
        rw [hb'] at hih
        show runDN ber ⟨R, A, T, LT, b ++ [c], 0⟩ (encGo false v' ++ k) = _
        rw [hih, List.append_assoc]
        rfl

def letterChar (c : Char) : Prop :=
  65 ≤ c.toNat ∧ c.toNat ≤ 90 ∨ 97 ≤ c.toNat ∧ c.toNat ≤ 122

theorem knownAttrs_chars : ∀ s ∈ knownAttrs, ∀ x ∈ s, 97 ≤ x.toNat ∧ x.toNat ≤ 122 := by
  decide

theorem letter_of_lower {c : Char} (h1 : 97 ≤ (lowerChar c).toNat)
    (h2 : (lowerChar c).toNat ≤ 122) : letterChar c := by
  unfold letterChar
  rw [lowerChar_toNat] at h1 h2
  split at h1
  · split at h2
    · omega
    · omega
  · split at h2
    · omega
    · omega

theorem type_chars_letters {t : List Char} (h : lowerStr t ∈ knownAttrs) :
    ∀ c ∈ t, letterChar c := by
  intro c hc
  have hmem : lowerChar c ∈ lowerStr t := List.mem_map_of_mem lowerChar hc
  obtain ⟨hlo, hhi⟩ := knownAttrs_chars (lowerStr t) h (lowerChar c) hmem
  exact letter_of_lower hlo hhi

theorem letter_facts {c : Char} (h : letterChar c) :
    c ≠ '\\' ∧ c ≠ '=' ∧ c ≠ ',' ∧ c ≠ '+' ∧ c ≠ ' ' := by
  unfold letterChar at h
  refine ⟨?_, ?_, ?_, ?_, ?_⟩ <;> intro hx <;> rw [char_eq_iff_toNat] at hx
  · rw [show ('\\' : Char).toNat = 92 from rfl] at hx; omega
  · rw [show ('=' : Char).toNat = 61 from rfl] at hx; omega
  · rw [show (',' : Char).toNat = 44 from rfl] at hx; omega
  · rw [show ('+' : Char).toNat = 43 from rfl] at hx; omega
  · rw [show (' ' : Char).toNat = 32 from rfl] at hx; omega

theorem type_consume (ber : List Char → Option (List Char))
    (R : List RelativeDN) (A : List ATV) (T0 LT0 : List Char) :
    ∀ (t b : List Char) (rest : List Char), (∀ c ∈ t, letterChar c) →
    runDN ber ⟨R, A, T0, LT0, b, 0⟩ (t ++ rest) =
      runDN ber ⟨R, A, T0, LT0, b ++ t, 0⟩ rest := by
  intro t
  induction t with
  | nil => intro b rest hlet; rw [List.nil_append, List.append_nil]
  | cons c t' ih =>
    intro b rest hlet
    obtain ⟨hbs, heq, hcm, hpl, hspc⟩ := letter_facts (hlet c (List.mem_cons_self c t'))
    rw [List.cons_append,
      runDN_default ber _ c _ hbs heq hcm hpl (by rintro ⟨rfl, _⟩; exact hspc rfl),
      if_neg hspc]
    have := ih (b ++ [c]) rest (fun x hx => hlet x (List.mem_cons_of_mem c hx))
    rw [this, List.append_assoc]
    rfl

theorem bufValue_trail0 (R : List RelativeDN) (A : List ATV) (T LT b : List Char) :
    bufValue ⟨R, A, T, LT, b, 0⟩ = b := by
  unfold bufValue
  simp

def attrStr (a : ATV) : List Char := a.TypeOrig ++ '=' :: encodeDN a.ValueOrig

theorem attr_consume (ber : List Char → Option (List Char))
    (R : List RelativeDN) (A : List ATV) (a : ATV) (haw : ATVWF a) (k : List Char)
    (hk : k = [] ∨ ∃ k', k = ',' :: k' ∨ k = '+' :: k') :
    runDN ber ⟨R, A, [], [], [], 0⟩ (attrStr a ++ k) =
      runDN ber ⟨R, A, a.TypeOrig, a.TypeNorm, a.ValueOrig, 0⟩ k := by
  obtain ⟨hne, hnorm, hmem, hvn⟩ := haw
  have hlet : ∀ c ∈ a.TypeOrig, letterChar c :=
    type_chars_letters (by rw [← hnorm]; exact hmem)
  unfold attrStr
  rw [List.append_assoc, type_consume ber R A [] [] a.TypeOrig [] _ hlet, List.nil_append]
  show runDN ber ⟨R, A, [], [], a.TypeOrig, 0⟩ ('=' :: (encodeDN a.ValueOrig ++ k)) = _
  by_cases hve : a.ValueOrig = []
  · rw [hve]
    show runDN ber ⟨R, A, [], [], a.TypeOrig, 0⟩ ('=' :: k) = _
    rcases hk with rfl | ⟨k', hk' | hk'⟩
    · rw [runDN_eq_nil, bufValue_trail0, ← hnorm]
    · rw [hk', runDN_eq_cons ber _ ',' k' (by decide), bufValue_trail0, ← hnorm]
    · rw [hk', runDN_eq_cons ber _ '+' k' (by decide), bufValue_trail0, ← hnorm]
  · obtain ⟨c0, t0, henc, hc0⟩ := encodeDN_head a.ValueOrig hve
    rw [henc, List.cons_append, runDN_eq_cons ber _ c0 (t0 ++ k) hc0, bufValue_trail0,
      ← hnorm, ← List.cons_append, ← henc]
    show runDN ber ⟨R, A, a.TypeOrig, a.TypeNorm, [], 0⟩ (encodeDN a.ValueOrig ++ k) = _
    have hcons := encGo_consume ber R A a.TypeOrig a.TypeNorm a.ValueOrig [] 0 k hve
    rw [List.nil_append] at hcons
    rw [show encodeDN a.ValueOrig = encGo (List.isEmpty []) a.ValueOrig from rfl, hcons]

theorem intercalate_singleton_list (sep x : List Char) :
    List.intercalate sep [x] = x := by
  simp [List.intercalate]

theorem intercalate_cons2 (sep x y : List Char) (t : List (List Char)) :
    List.intercalate sep (x :: y :: t) = x ++ sep ++ List.intercalate sep (y :: t) := by
  simp [List.intercalate, List.intersperse]

theorem atv_eta (a : ATV) :
    (⟨a.TypeOrig, a.TypeNorm, a.ValueOrig, a.ValueNorm⟩ : ATV) = a := rfl

theorem normValue_of_wf {a : ATV} (haw : ATVWF a) :
    normValue a.TypeNorm a.ValueOrig = some a.ValueNorm := by
  obtain ⟨hne, hnorm, hmem, hvn⟩ := haw
  unfold normValue
  rw [if_pos hmem, ← hvn]

theorem rdn_consume (ber : List Char → Option (List Char)) :
    ∀ (as' : List ATV) (a : ATV) (R : List RelativeDN) (A : List ATV),
    (∀ x ∈ as' ++ [a], ATVWF x) →
    ∀ (k : List Char), (k = [] ∨ ∃ k', k = ',' :: k') →
    runDN ber ⟨R, A, [], [], [], 0⟩
        (List.intercalate ['+'] ((as' ++ [a]).map attrStr) ++ k) =
      runDN ber ⟨R, A ++ as', a.TypeOrig, a.TypeNorm, a.ValueOrig, 0⟩ k := by
  intro as'
  induction as' with
  | nil =>
    intro a R A hW k hk
    rw [List.nil_append, List.map_singleton, intercalate_singleton_list]
    rw [attr_consume ber R A a (hW a (by simp)) k ?hk2]
    · rw [List.append_nil]
    · rcases hk with rfl | ⟨k', hk'⟩
      · exact Or.inl rfl
      · exact Or.inr ⟨k', Or.inl hk'⟩
  | cons a0 as'' ih =>
    intro a R A hW k hk
    have hW0 : ATVWF a0 := hW a0 (by simp)
    rcases hmap : (as'' ++ [a]).map attrStr with _ | ⟨m0, ms⟩
    · exact absurd hmap (by simp)
    rw [List.cons_append, List.map_cons, hmap, intercalate_cons2, ← hmap,
      List.append_assoc, List.append_assoc, List.singleton_append]
    rw [attr_consume ber R A a0 hW0 _ (Or.inr ⟨_, Or.inr rfl⟩)]
    show runDN ber _ ('+' :: (List.intercalate ['+'] ((as'' ++ [a]).map attrStr) ++ k)) = _
    rw [runDN_plus, if_neg (by rw [List.isEmpty_iff]; exact hW0.1), bufValue_trail0,
      normValue_of_wf hW0]
    show runDN ber ⟨R, A ++ [a0], [], [], [], 0⟩ _ = _
    rw [ih a R (A ++ [a0]) (fun x hx => hW x (by simpa using Or.inr hx)) k hk,
      List.append_assoc]
    rfl

def lastAttrValueOrig (d : DN) : List Char :=
  ((d.RDNs.getLast?.getD ⟨[]⟩).Attributes.getLast?.getD ⟨[], [], [], []⟩).ValueOrig

theorem origEncodedStr_eq (r : RelativeDN) :
    r.OrigEncodedStr = List.intercalate ['+'] (r.Attributes.map attrStr) := rfl

theorem finish_pending (ber : List Char → Option (List Char))
    (R : List RelativeDN) (as' : List ATV) (a : ATV) (haw : ATVWF a)
    (hvne : a.ValueOrig ≠ []) :
    runDN ber ⟨R, as', a.TypeOrig, a.TypeNorm, a.ValueOrig, 0⟩ [] =
      Except.ok ⟨R ++ [⟨as' ++ [a]⟩]⟩ := by
  rw [runDN_nil]
  unfold finishDN
  rw [if_neg (by rw [List.isEmpty_iff]; exact hvne),
    if_neg (by rw [List.isEmpty_iff]; exact haw.1), bufValue_trail0, normValue_of_wf haw]

theorem dn_consume (ber : List Char → Option (List Char)) :
    ∀ (rdns : List RelativeDN) (R : List RelativeDN),
    (∀ r ∈ rdns, RDNWF r) → rdns ≠ [] →
    lastAttrValueOrig ⟨rdns⟩ ≠ [] →
    runDN ber ⟨R, [], [], [], [], 0⟩
        (List.intercalate [','] (rdns.map RelativeDN.OrigEncodedStr)) =
      Except.ok ⟨R ++ rdns⟩ := by
  intro rdns
  induction rdns with
  | nil => intro R hW hne hlast; exact absurd rfl hne
  | cons r rs ih =>
    intro R hW hne hlast
    have hRW : RDNWF r := hW r (by simp)
    rcases List.eq_nil_or_concat r.Attributes with hat | ⟨as', a, hat⟩
    · exact absurd hat hRW.1
    rw [List.concat_eq_append] at hat
    have haw : ATVWF a := hRW.2 a (by rw [hat]; simp)
    have hWas : ∀ x ∈ as' ++ [a], ATVWF x := by
      intro x hx
      exact hRW.2 x (by rw [hat]; exact hx)
    rcases rs with _ | ⟨r1, rs'⟩
    · rw [List.map_singleton, intercalate_singleton_list, origEncodedStr_eq, hat]
      have hvne : a.ValueOrig ≠ [] := by
        unfold lastAttrValueOrig at hlast
        simp only [List.getLast?_singleton, Option.getD_some, hat,
          List.getLast?_concat] at hlast
        exact hlast
      have := rdn_consume ber as' a R [] hWas [] (Or.inl rfl)
      rw [List.append_nil] at this
      rw [this, List.nil_append, finish_pending ber R as' a haw hvne, ← hat]
    · rw [List.map_cons, List.map_cons, intercalate_cons2, ← List.map_cons,
        origEncodedStr_eq, hat, List.append_assoc, List.singleton_append]
      rw [rdn_consume ber as' a R [] hWas _ (Or.inr ⟨_, rfl⟩), List.nil_append]
      rw [runDN_comma, if_neg (by rw [List.isEmpty_iff]; exact haw.1), bufValue_trail0,
        normValue_of_wf haw]
      show runDN ber ⟨R ++ [⟨as' ++ [a]⟩], [], [], [], [], 0⟩ _ = _
      rw [← hat]
      have hlast' : lastAttrValueOrig ⟨r1 :: rs'⟩ ≠ [] := by
        unfold lastAttrValueOrig at hlast ⊢
        rwa [List.getLast?_cons_cons] at hlast
      have heta : ({ Attributes := r.Attributes } : RelativeDN) = r := rfl
      rw [heta]
      rw [ih (R ++ [r]) (fun x hx => hW x (by simp [hx])) (by simp) hlast',
        List.append_assoc]
      rfl

/-- C8 counterexample: `cn=,` parses to a DN whose final attribute has the
empty value; its `DNOrigStr` is `cn=`, which re-parses to the anonymous
(empty) DN, so the re-parse is a different DN and `DNNormStr` is not
preserved. -/
theorem C8_counterexample :
    ParseDN (fun _ => none) "cn=,".data =
      Except.ok ⟨[⟨[⟨"cn".data, "cn".data, [], []⟩]⟩]⟩ ∧
    DN.DNOrigStr ⟨[⟨[⟨"cn".data, "cn".data, [], []⟩]⟩]⟩ = "cn=".data ∧
    ParseDN (fun _ => none) "cn=".data = Except.ok ⟨[]⟩ ∧
    (⟨[]⟩ : DN) ≠ ⟨[⟨[⟨"cn".data, "cn".data, [], []⟩]⟩]⟩ ∧
    DN.DNNormStr ⟨[]⟩ ≠ DN.DNNormStr ⟨[⟨[⟨"cn".data, "cn".data, [], []⟩]⟩]⟩ := by
  refine ⟨?_, by decide, ?_, by decide, by decide⟩
  · show runDN (fun _ => none) initPState ['c', 'n', '=', ','] = _
    rw [runDN_default _ _ _ _ (by decide) (by decide) (by decide) (by decide) (by decide),
      runDN_default _ _ _ _ (by decide) (by decide) (by decide) (by decide) (by decide),
      runDN_eq_cons _ _ _ _ (by decide),
      runDN_comma]
    show runDN (fun _ => none) _ [] = _
    rw [runDN_nil]
    rfl
  · show runDN (fun _ => none) initPState ['c', 'n', '='] = _
    rw [runDN_default _ _ _ _ (by decide) (by decide) (by decide) (by decide) (by decide),
      runDN_default _ _ _ _ (by decide) (by decide) (by decide) (by decide) (by decide),
      runDN_eq_nil, runDN_nil]
    rfl

/-- C8 (amended): for every string that `ParseDN` accepts, provided the
parsed DN is empty or its final attribute's original value is non-empty
(the final flush of the parse loop silently drops a trailing empty value),
re-parsing `DNOrigStr` yields exactly the same DN, and `DNNormStr` is
unchanged by the re-parse. -/
theorem C8_amended (ber : List Char → Option (List Char)) (s : List Char) (d : DN)
    (h : ParseDN ber s = Except.ok d)
    (hlast : d.RDNs = [] ∨ lastAttrValueOrig d ≠ []) :
    ParseDN ber d.DNOrigStr = Except.ok d ∧
      (ParseDN ber d.DNOrigStr).map DN.DNNormStr = Except.ok d.DNNormStr := by
  have hwf : DNWF d :=
    runDN_wf ber initPState s
      ⟨fun r hr => absurd hr (by simp [initPState]),
        fun a ha => absurd ha (by simp [initPState]), rfl⟩ d h
  have hmain : ParseDN ber d.DNOrigStr = Except.ok d := by
    by_cases hrd : d.RDNs = []
    · rcases d with ⟨rdns⟩
      simp only at hrd
      subst hrd
      show runDN ber initPState [] = _
      rw [runDN_nil]
      rfl
    · rcases hlast with h0 | hv
      · exact absurd h0 hrd
      · show runDN ber initPState
          (List.intercalate [','] (d.RDNs.map RelativeDN.OrigEncodedStr)) = _
        have hdc := dn_consume ber d.RDNs [] hwf hrd (by rcases d with ⟨rdns⟩; exact hv)
        rw [List.nil_append] at hdc
        rw [show initPState = (⟨[], [], [], [], [], 0⟩ : PState) from rfl, hdc]
  exact ⟨hmain, by rw [hmain]; rfl⟩

/-- C8 witness: the amended theorem applied to the DN parsed from `cn=a`. -/
theorem C8_amended_witness :
    ParseDN (fun _ => none)
        (DN.DNOrigStr ⟨[⟨[⟨"cn".data, "cn".data, "a".data, "a".data⟩]⟩]⟩) =
      Except.ok ⟨[⟨[⟨"cn".data, "cn".data, "a".data, "a".data⟩]⟩]⟩ := by
  have hp : ParseDN (fun _ => none) "cn=a".data =
      Except.ok (⟨[⟨[⟨"cn".data, "cn".data, "a".data, "a".data⟩]⟩]⟩ : DN) := by
    show runDN (fun _ => none) initPState ['c', 'n', '=', 'a'] = _
    rw [runDN_default _ _ _ _ (by decide) (by decide) (by decide) (by decide) (by decide),
      runDN_default _ _ _ _ (by decide) (by decide) (by decide) (by decide) (by decide),
      runDN_eq_cons _ _ _ _ (by decide),
      runDN_default _ _ _ _ (by decide) (by decide) (by decide) (by decide) (by decide),
      runDN_nil]
    rfl
  exact (C8_amended (fun _ => none) "cn=a".data _ hp (Or.inr (by decide))).1
